import Mathlib

set_option linter.unusedSectionVars false

/-
A verification development for the arithmetic-extension gadget layer of a
plonky2-style circuit builder, together with the Goldilocks extension-tower
constants.  The gadget functions (`double_arithmetic_extension`,
`arithmetic_extension` and its special cases, the add/sub/mul families,
division, inversion, the powers iterator) are shallow embeddings of the
functions in `src/gadgets/arithmetic_extension.rs`.  The surrounding circuit
substrate (targets, the builder state, witness evaluation) is not part of the
provided sources and is modelled from the specification.
-/

namespace Plonky2

/-- Modelled from the spec: an `ExtensionTarget` is a reference to D wire
slots, either a contiguous range inside one gate (here: a gate index plus
a wire-group index, groups 0-5 being the operand groups and 6/7 the two
output groups of an `ArithmeticExtensionGate`), a virtually allocated
range, or a constant-wire source.  Equality is slot identity; constant
targets are cached per value, so two constant targets are equal exactly
when their values are. -/
inductive ETarget (E : Type) where
  | wire (gate : Nat) (group : Nat)
  | virt (idx : Nat)
  | konst (v : E)
deriving DecidableEq

/-- A constraint emitted by the gadget layer: either a fused-multiply-add
gate equation `out = c0 * m0 * m1 + c1 * a` (copy constraints to the
gate wires collapsed into the operand references), or an equality
constraint from `assert_equal_extension`. -/
inductive Constr (F E : Type) where
  | gate (c0 c1 : F) (m0 m1 a outT : ETarget E)
  | eqc (t1 t2 : ETarget E)

/-- Modelled from the spec: the circuit-builder state visible to this layer:
a monotonically increasing gate counter, a virtual-target counter, the
witness values held by the wires (an association list keyed by target),
the emitted constraints, and the registered quotient generators
`(numerator, denominator, quotient)`. -/
structure CB (F E : Type) where
  numGates : Nat
  virtCount : Nat
  vals : List (ETarget E × E)
  constrs : List (Constr F E)
  gens : List (ETarget E × ETarget E × ETarget E)

variable {F E : Type} [Field F] [Field E] [DecidableEq F] [DecidableEq E]

/-- Lookup of a target key in the witness association list. -/
def lookupVal : List (ETarget E × E) → ETarget E → Option E
  | [], _ => none
  | p :: rest, t => if p.1 = t then some p.2 else lookupVal rest t

/-- Witness value carried by a target, relative to a wire-value list:
constant targets evaluate to their constant, other targets to their
recorded value (defaulting to 0 when unassigned). -/
def evalL (vals : List (ETarget E × E)) : ETarget E → E
  | .konst v => v
  | .wire g i => (lookupVal vals (.wire g i)).getD 0
  | .virt i => (lookupVal vals (.virt i)).getD 0

/-- Witness value carried by a target in a builder state. -/
def evalT (st : CB F E) : ETarget E → E :=
  evalL st.vals

/-- A target is bound in a state when every gate or virtual index it
references has already been allocated. -/
def tB (st : CB F E) : ETarget E → Prop
  | .wire g _ => g < st.numGates
  | .virt i => i < st.virtCount
  | .konst _ => True

/-- State evolution: later builder states keep all counters monotone and
preserve the witness values of already-bound targets. -/
structure Extends (st stB : CB F E) : Prop where
  gates_le : st.numGates ≤ stB.numGates
  virt_le : st.virtCount ≤ stB.virtCount
  pres : ∀ t, tB st t → evalT stB t = evalT st t

theorem Extends.refl (st : CB F E) : Extends st st :=
  ⟨Nat.le_refl _, Nat.le_refl _, fun _ _ => rfl⟩

theorem Extends.trans {st1 st2 st3 : CB F E} (h12 : Extends st1 st2)
    (h23 : Extends st2 st3) : Extends st1 st3 := by
  refine ⟨Nat.le_trans h12.gates_le h23.gates_le,
         Nat.le_trans h12.virt_le h23.virt_le, fun t ht => ?_⟩
  have ht2 : tB st2 t := by
    cases t with
    | wire g i => exact Nat.lt_of_lt_of_le ht h12.gates_le
    | virt i => exact Nat.lt_of_lt_of_le ht h12.virt_le
    | konst v => trivial
  rw [h23.pres t ht2, h12.pres t ht]

theorem tB_mono {st stB : CB F E} (h : Extends st stB) {t : ETarget E}
    (ht : tB st t) : tB stB t := by
  cases t with
  | wire g i => exact Nat.lt_of_lt_of_le ht h.gates_le
  | virt i => exact Nat.lt_of_lt_of_le ht h.virt_le
  | konst v => trivial

theorem lookupVal_cons_ne {k t : ETarget E} {v : E} {l : List (ETarget E × E)}
    (h : k ≠ t) : lookupVal ((k, v) :: l) t = lookupVal l t := by
  simp [lookupVal, h]

theorem evalL_cons_ne {k t : ETarget E} {v : E} {l : List (ETarget E × E)}
    (h : k ≠ t) : evalL ((k, v) :: l) t = evalL l t := by
  cases t with
  | wire g i => simp [evalL, lookupVal_cons_ne h]
  | virt i => simp [evalL, lookupVal_cons_ne h]
  | konst w => simp [evalL]

theorem evalL_cons_wire {g i : Nat} {v : E} {l : List (ETarget E × E)} :
    evalL ((ETarget.wire g i, v) :: l) (ETarget.wire g i) = v := by
  simp [evalL, lookupVal]

theorem evalL_cons_virt {i : Nat} {v : E} {l : List (ETarget E × E)} :
    evalL ((ETarget.virt i, v) :: l) (ETarget.virt i) = v := by
  simp [evalL, lookupVal]

theorem tB_ne_wire {st : CB F E} {t : ETarget E} (ht : tB st t) (i : Nat) :
    t ≠ ETarget.wire st.numGates i := by
  intro h; subst h; exact Nat.lt_irrefl _ ht

theorem tB_ne_virt {st : CB F E} {t : ETarget E} (ht : tB st t) :
    t ≠ ETarget.virt st.virtCount := by
  intro h; subst h; exact Nat.lt_irrefl _ ht

variable (φ : F →+* E)

/-- First fused operation of a freshly allocated `ArithmeticExtensionGate`:
bumps the gate counter, writes `c0 * m0 * m1 + c1 * a` into the first
output wire range of the new gate, and records the gate equation. -/
def gateFirst (st : CB F E) (c0 c1 : F) (fm0 fm1 fa : ETarget E) : CB F E :=
  { st with
    numGates := st.numGates + 1
    vals := (ETarget.wire st.numGates 6,
      φ c0 * evalT st fm0 * evalT st fm1 + φ c1 * evalT st fa) :: st.vals
    constrs :=
      Constr.gate c0 c1 fm0 fm1 fa (ETarget.wire st.numGates 6) :: st.constrs }

/-- Second fused operation of the gate allocated at index `g`: writes
`c0 * m0 * m1 + c1 * a` into the second output wire range, evaluating the
operands after the first output already carries its value (so an operand
referencing the first output of the same gate resolves to that value). -/
def gateSecond (g : Nat) (st1 : CB F E) (c0 c1 : F) (sm0 sm1 sa : ETarget E) :
    CB F E :=
  { st1 with
    vals := (ETarget.wire g 7,
      φ c0 * evalT st1 sm0 * evalT st1 sm1 + φ c1 * evalT st1 sa) :: st1.vals
    constrs := Constr.gate c0 c1 sm0 sm1 sa (ETarget.wire g 7) :: st1.constrs }

/-- Embedding of `CircuitBuilder::double_arithmetic_extension`: adds one
`ArithmeticExtensionGate` with parameters `(const_0, const_1)` computing two
independent fused operations, routes the six operands to the gate input
wires (routing collapsed into the operand references of the recorded gate
equations), and returns the two output wire ranges. -/
def double_arithmetic_extension (st : CB F E) (c0 c1 : F)
    (fm0 fm1 fa sm0 sm1 sa : ETarget E) : (ETarget E × ETarget E) × CB F E :=
  ((ETarget.wire st.numGates 6, ETarget.wire st.numGates 7),
   gateSecond φ st.numGates (gateFirst φ st c0 c1 fm0 fm1 fa) c0 c1 sm0 sm1 sa)

theorem gateFirst_pres {st : CB F E} {t : ETarget E} (ht : tB st t)
    (c0 c1 : F) (fm0 fm1 fa : ETarget E) :
    evalT (gateFirst φ st c0 c1 fm0 fm1 fa) t = evalT st t :=
  evalL_cons_ne (Ne.symm (tB_ne_wire ht 6))

theorem gateFirst_out {st : CB F E} (c0 c1 : F) (fm0 fm1 fa : ETarget E) :
    evalT (gateFirst φ st c0 c1 fm0 fm1 fa) (ETarget.wire st.numGates 6)
      = φ c0 * evalT st fm0 * evalT st fm1 + φ c1 * evalT st fa :=
  evalL_cons_wire

theorem gateSecond_pres {g : Nat} {st1 : CB F E} {t : ETarget E}
    (h : ETarget.wire g 7 ≠ t) (c0 c1 : F) (sm0 sm1 sa : ETarget E) :
    evalT (gateSecond φ g st1 c0 c1 sm0 sm1 sa) t = evalT st1 t :=
  evalL_cons_ne h

theorem gateSecond_out {g : Nat} {st1 : CB F E} (c0 c1 : F)
    (sm0 sm1 sa : ETarget E) :
    evalT (gateSecond φ g st1 c0 c1 sm0 sm1 sa) (ETarget.wire g 7)
      = φ c0 * evalT st1 sm0 * evalT st1 sm1 + φ c1 * evalT st1 sa :=
  evalL_cons_wire

theorem double_numGates (st : CB F E) (c0 c1 : F)
    (fm0 fm1 fa sm0 sm1 sa : ETarget E) :
    (double_arithmetic_extension φ st c0 c1 fm0 fm1 fa sm0 sm1 sa).2.numGates
      = st.numGates + 1 := rfl

theorem double_virtCount (st : CB F E) (c0 c1 : F)
    (fm0 fm1 fa sm0 sm1 sa : ETarget E) :
    (double_arithmetic_extension φ st c0 c1 fm0 fm1 fa sm0 sm1 sa).2.virtCount
      = st.virtCount := rfl

theorem double_outs (st : CB F E) (c0 c1 : F)
    (fm0 fm1 fa sm0 sm1 sa : ETarget E) :
    (double_arithmetic_extension φ st c0 c1 fm0 fm1 fa sm0 sm1 sa).1
      = (ETarget.wire st.numGates 6, ETarget.wire st.numGates 7) := rfl

theorem double_constrs (st : CB F E) (c0 c1 : F)
    (fm0 fm1 fa sm0 sm1 sa : ETarget E) :
    (double_arithmetic_extension φ st c0 c1 fm0 fm1 fa sm0 sm1 sa).2.constrs
      = Constr.gate c0 c1 sm0 sm1 sa (ETarget.wire st.numGates 7)
        :: Constr.gate c0 c1 fm0 fm1 fa (ETarget.wire st.numGates 6)
        :: st.constrs := rfl

theorem double_extends (st : CB F E) (c0 c1 : F)
    (fm0 fm1 fa sm0 sm1 sa : ETarget E) :
    Extends st (double_arithmetic_extension φ st c0 c1 fm0 fm1 fa sm0 sm1 sa).2 := by
  refine ⟨Nat.le_succ _, Nat.le_refl _, fun t ht => ?_⟩
  show evalT (gateSecond φ st.numGates (gateFirst φ st c0 c1 fm0 fm1 fa)
    c0 c1 sm0 sm1 sa) t = evalT st t
  rw [gateSecond_pres φ (Ne.symm (tB_ne_wire ht 7)), gateFirst_pres φ ht]

theorem double_fst_val (st : CB F E) (c0 c1 : F)
    (fm0 fm1 fa sm0 sm1 sa : ETarget E) :
    evalT (double_arithmetic_extension φ st c0 c1 fm0 fm1 fa sm0 sm1 sa).2
        (double_arithmetic_extension φ st c0 c1 fm0 fm1 fa sm0 sm1 sa).1.1
      = φ c0 * evalT st fm0 * evalT st fm1 + φ c1 * evalT st fa := by
  show evalT (gateSecond φ st.numGates (gateFirst φ st c0 c1 fm0 fm1 fa)
    c0 c1 sm0 sm1 sa) (ETarget.wire st.numGates 6)
      = φ c0 * evalT st fm0 * evalT st fm1 + φ c1 * evalT st fa
  rw [gateSecond_pres φ (by simp), gateFirst_out φ]

theorem double_snd_val {st : CB F E} (c0 c1 : F)
    {fm0 fm1 fa sm0 sm1 sa : ETarget E} (hm0 : tB st sm0) (hm1 : tB st sm1)
    (hsa : tB st sa) :
    evalT (double_arithmetic_extension φ st c0 c1 fm0 fm1 fa sm0 sm1 sa).2
        (double_arithmetic_extension φ st c0 c1 fm0 fm1 fa sm0 sm1 sa).1.2
      = φ c0 * evalT st sm0 * evalT st sm1 + φ c1 * evalT st sa := by
  show evalT (gateSecond φ st.numGates (gateFirst φ st c0 c1 fm0 fm1 fa)
    c0 c1 sm0 sm1 sa) (ETarget.wire st.numGates 7) = _
  rw [gateSecond_out φ, gateFirst_pres φ hm0, gateFirst_pres φ hm1,
    gateFirst_pres φ hsa]

theorem double_snd_val_selfref {st : CB F E} (c0 c1 : F)
    {fm0 fm1 fa sm0 sm1 : ETarget E} (hm0 : tB st sm0) (hm1 : tB st sm1) :
    evalT (double_arithmetic_extension φ st c0 c1 fm0 fm1 fa sm0 sm1
        (ETarget.wire st.numGates 6)).2
        (double_arithmetic_extension φ st c0 c1 fm0 fm1 fa sm0 sm1
        (ETarget.wire st.numGates 6)).1.2
      = φ c0 * evalT st sm0 * evalT st sm1
        + φ c1 * (φ c0 * evalT st fm0 * evalT st fm1 + φ c1 * evalT st fa) := by
  show evalT (gateSecond φ st.numGates (gateFirst φ st c0 c1 fm0 fm1 fa)
    c0 c1 sm0 sm1 (ETarget.wire st.numGates 6)) (ETarget.wire st.numGates 7) = _
  rw [gateSecond_out φ, gateFirst_pres φ hm0, gateFirst_pres φ hm1,
    gateFirst_out φ]

theorem double_snd_val_sm1_selfref {st : CB F E} (c0 c1 : F)
    {fm0 fm1 fa sm0 sa : ETarget E} (hm0 : tB st sm0) (hsa : tB st sa) :
    evalT (double_arithmetic_extension φ st c0 c1 fm0 fm1 fa sm0
        (ETarget.wire st.numGates 6) sa).2
        (double_arithmetic_extension φ st c0 c1 fm0 fm1 fa sm0
        (ETarget.wire st.numGates 6) sa).1.2
      = φ c0 * evalT st sm0
          * (φ c0 * evalT st fm0 * evalT st fm1 + φ c1 * evalT st fa)
        + φ c1 * evalT st sa := by
  show evalT (gateSecond φ st.numGates (gateFirst φ st c0 c1 fm0 fm1 fa)
    c0 c1 sm0 (ETarget.wire st.numGates 6) sa) (ETarget.wire st.numGates 7) = _
  rw [gateSecond_out φ, gateFirst_pres φ hm0, gateFirst_pres φ hsa,
    gateFirst_out φ]

theorem double_out1_tB (st : CB F E) (c0 c1 : F)
    (fm0 fm1 fa sm0 sm1 sa : ETarget E) :
    tB (double_arithmetic_extension φ st c0 c1 fm0 fm1 fa sm0 sm1 sa).2
      (double_arithmetic_extension φ st c0 c1 fm0 fm1 fa sm0 sm1 sa).1.1 :=
  Nat.lt_succ_self _

theorem double_out2_tB (st : CB F E) (c0 c1 : F)
    (fm0 fm1 fa sm0 sm1 sa : ETarget E) :
    tB (double_arithmetic_extension φ st c0 c1 fm0 fm1 fa sm0 sm1 sa).2
      (double_arithmetic_extension φ st c0 c1 fm0 fm1 fa sm0 sm1 sa).1.2 :=
  Nat.lt_succ_self _

/-- Embedding of `CircuitBuilder::zero_extension`: the cached constant-zero
extension target. -/
def zero_extension : ETarget E := ETarget.konst 0

/-- Embedding of `CircuitBuilder::one_extension`: the cached constant-one
extension target. -/
def one_extension : ETarget E := ETarget.konst 1

/-- Embedding of `CircuitBuilder::constant_extension`: the cached constant
target holding a given extension value. -/
def constant_extension (v : E) : ETarget E := ETarget.konst v

/-- Embedding of `CircuitBuilder::target_as_constant_ext`: a target is
recognised as a compile-time constant exactly when all its wires trace to a
constant source, which in the model means it is a constant target. -/
def target_as_constant_ext : ETarget E → Option E
  | .konst v => some v
  | _ => none

/-- Helper for rule 3 of the special cases: does an optional constant
multiplicand `x` satisfy `(x * const_0).is_one()`. -/
def isOneTimes (c0 : F) : Option E → Bool
  | some x => decide (x * φ c0 = 1)
  | none => false

/-- The `first_term_zero` test of the special cases: the first term is
structurally zero when `const_0` is the zero scalar or either multiplicand
is the canonical extension-zero target. -/
def first_term_zero (c0 : F) (m0 m1 : ETarget E) : Prop :=
  c0 = 0 ∨ m0 = zero_extension ∨ m1 = zero_extension

instance (c0 : F) (m0 m1 : ETarget E) : Decidable (first_term_zero c0 m0 m1) := by
  unfold first_term_zero; infer_instance

/-- The `second_term_zero` test of the special cases. -/
def second_term_zero (c1 : F) (a : ETarget E) : Prop :=
  c1 = 0 ∨ a = zero_extension

instance (c1 : F) (a : ETarget E) : Decidable (second_term_zero c1 a) := by
  unfold second_term_zero; infer_instance

/-- The `first_term_const` computation of the special cases: zero when the
first term is structurally zero, the folded product when both multiplicands
are compile-time constants. -/
def first_term_const (c0 : F) (m0 m1 : ETarget E) : Option E :=
  if first_term_zero c0 m0 m1 then some 0
  else
    match target_as_constant_ext m0, target_as_constant_ext m1 with
    | some x, some y => some (x * y * φ c0)
    | _, _ => none

/-- The `second_term_const` computation of the special cases. -/
def second_term_const (c1 : F) (a : ETarget E) : Option E :=
  if second_term_zero c1 a then some 0
  else (target_as_constant_ext a).map (fun x => x * φ c1)

/-- Embedding of `CircuitBuilder::arithmetic_extension_special_cases`:
detects the cases where `const_0 * m0 * m1 + const_1 * addend` can be
produced without allocating an `ArithmeticExtensionGate`, in the priority
order of the source (constant folding, then pass-through of the addend,
then identity elimination of either multiplicand). -/
def arithmetic_extension_special_cases (c0 c1 : F) (m0 m1 a : ETarget E) :
    Option (ETarget E) :=
  match first_term_const φ c0 m0 m1, second_term_const φ c1 a with
  | some x, some y => some (constant_extension (x + y))
  | _, _ =>
    if first_term_zero c0 m0 m1 ∧ c1 = 1 then some a
    else if second_term_zero c1 a then
      if isOneTimes φ c0 (target_as_constant_ext m0) then some m1
      else if isOneTimes φ c0 (target_as_constant_ext m1) then some m0
      else none
    else none

/-- Embedding of `CircuitBuilder::arithmetic_extension`: returns the special
case result without touching the builder when one applies, otherwise packs
the single operation into a fresh gate padded with extension-zero operands. -/
def arithmetic_extension (st : CB F E) (c0 c1 : F) (m0 m1 a : ETarget E) :
    ETarget E × CB F E :=
  match arithmetic_extension_special_cases φ c0 c1 m0 m1 a with
  | some result => (result, st)
  | none =>
    let zero : ETarget E := zero_extension
    let r := double_arithmetic_extension φ st c0 c1 m0 m1 a zero zero zero
    (r.1.1, r.2)

/-- Embedding of `CircuitBuilder::arithmetic_many_extension`: consumes the
operand triples two at a time through packed gates, with a leftover odd
operand going through a single `arithmetic_extension` call. -/
def arithmetic_many_extension (st : CB F E) (c0 c1 : F) :
    List (ETarget E × ETarget E × ETarget E) → List (ETarget E) × CB F E
  | p :: q :: rest =>
    let r := double_arithmetic_extension φ st c0 c1 p.1 p.2.1 p.2.2 q.1 q.2.1 q.2.2
    let rec_ := arithmetic_many_extension r.2 c0 c1 rest
    (r.1.1 :: r.1.2 :: rec_.1, rec_.2)
  | [p] =>
    let r := arithmetic_extension φ st c0 c1 p.1 p.2.1 p.2.2
    ([r.1], r.2)
  | [] => ([], st)

/-- Embedding of `CircuitBuilder::add_extension`:
`arithmetic(1, 1, one, a, b)`. -/
def add_extension (st : CB F E) (a b : ETarget E) : ETarget E × CB F E :=
  arithmetic_extension φ st 1 1 one_extension a b

/-- Embedding of `CircuitBuilder::add_three_extension`: adds three targets
with a single gate by predicting the next gate index and feeding the first
output wire range of that gate back as the second addend. -/
def add_three_extension (st : CB F E) (a b c : ETarget E) :
    ETarget E × CB F E :=
  let one : ETarget E := one_extension
  let gate := st.numGates
  let first_out : ETarget E := ETarget.wire gate 6
  let r := double_arithmetic_extension φ st 1 1 one a b one c first_out
  (r.1.2, r.2)

/-- Embedding of `CircuitBuilder::mul_extension_with_const`: a single
multiplication with scalar `const_0`, always through a fresh gate. -/
def mul_extension_with_const (st : CB F E) (c0 : F) (m0 m1 : ETarget E) :
    ETarget E × CB F E :=
  let zero : ETarget E := zero_extension
  let r := double_arithmetic_extension φ st c0 0 m0 m1 zero zero zero zero
  (r.1.1, r.2)

/-- Embedding of `CircuitBuilder::mul_extension`:
`mul_extension_with_const` with `const_0 = 1`. -/
def mul_extension (st : CB F E) (m0 m1 : ETarget E) : ETarget E × CB F E :=
  mul_extension_with_const φ st 1 m0 m1

/-- Embedding of `CircuitBuilder::mul_three_extension`: multiplies three
targets with a single gate via the same next-gate-index self reference as
`add_three_extension`. -/
def mul_three_extension (st : CB F E) (a b c : ETarget E) :
    ETarget E × CB F E :=
  let zero : ETarget E := zero_extension
  let gate := st.numGates
  let first_out : ETarget E := ETarget.wire gate 6
  let r := double_arithmetic_extension φ st 1 0 a b zero c first_out zero
  (r.1.2, r.2)

/-- Loop shared by `add_many_extension` and `mul_many_extension` after
normalisation: consume the remaining terms two at a time through the
three-operand single-gate helper (`chunks_exact(2)` drops a leftover). -/
def manyLoop (step : CB F E → ETarget E → ETarget E → ETarget E →
    ETarget E × CB F E) (st : CB F E) (acc : ETarget E) :
    List (ETarget E) → ETarget E × CB F E
  | t1 :: t2 :: rest =>
    let r := step st acc t1 t2
    manyLoop step r.2 r.1 rest
  | _ => (acc, st)

/-- Embedding of `CircuitBuilder::add_many_extension`: returns zero for no
terms, pads to three terms with zeros for short lists, pushes an extra zero
to make the count odd, then reduces with `add_three_extension`. -/
def add_many_extension (st : CB F E) (terms : List (ETarget E)) :
    ETarget E × CB F E :=
  let zero : ETarget E := zero_extension
  if terms.isEmpty then (zero, st)
  else
    let ts :=
      if terms.length < 3 then terms ++ List.replicate (3 - terms.length) zero
      else if terms.length % 2 = 0 then terms ++ [zero]
      else terms
    match ts with
    | t0 :: t1 :: t2 :: rest =>
      let r := add_three_extension φ st t0 t1 t2
      manyLoop (add_three_extension φ) r.2 r.1 rest
    | _ => (zero, st)

/-- Embedding of `CircuitBuilder::mul_many_extension`: returns one for no
terms, pads to three terms with ones for short lists, pushes an extra one to
make the count odd, then reduces with `mul_three_extension`. -/
def mul_many_extension (st : CB F E) (terms : List (ETarget E)) :
    ETarget E × CB F E :=
  let one : ETarget E := one_extension
  if terms.isEmpty then (one, st)
  else
    let ts :=
      if terms.length < 3 then terms ++ List.replicate (3 - terms.length) one
      else if terms.length % 2 = 0 then terms ++ [one]
      else terms
    match ts with
    | t0 :: t1 :: t2 :: rest =>
      let r := mul_three_extension φ st t0 t1 t2
      manyLoop (mul_three_extension φ) r.2 r.1 rest
    | _ => (one, st)

/-- Embedding of `CircuitBuilder::add_virtual_extension_target`: allocates a
fresh virtual wire range. -/
def add_virtual_extension_target (st : CB F E) : ETarget E × CB F E :=
  (ETarget.virt st.virtCount, { st with virtCount := st.virtCount + 1 })

/-- Embedding of `QuotientGeneratorExtension::run_once`: computes
`quotient := numerator / denominator` with host extension-field division. -/
def quotientRunOnce (num dem : E) : E := num / dem

/-- Embedding of `CircuitBuilder::add_generator` for a
`QuotientGeneratorExtension { numerator, denominator, quotient }`: the
generator is recorded and, since its dependency wires already carry values
in the model, its one-shot run writes `numerator / denominator` into the
quotient wires. -/
def add_quotient_generator (st : CB F E) (num dem q : ETarget E) : CB F E :=
  { st with
    gens := (num, dem, q) :: st.gens
    vals := (q, quotientRunOnce (evalT st num) (evalT st dem)) :: st.vals }

/-- Embedding of `CircuitBuilder::assert_equal_extension`: records an
equality constraint between two targets. -/
def assert_equal_extension (st : CB F E) (t1 t2 : ETarget E) : CB F E :=
  { st with constrs := Constr.eqc t1 t2 :: st.constrs }

/-- Embedding of `CircuitBuilder::inverse_extension`: witnesses `1 / x`
through a quotient generator and enforces `x * inv = 1` in-circuit. -/
def inverse_extension (st : CB F E) (x : ETarget E) : ETarget E × CB F E :=
  let r0 := add_virtual_extension_target st
  let inv := r0.1
  let one : ETarget E := one_extension
  let st1 := add_quotient_generator r0.2 one x inv
  let r1 := mul_extension φ st1 x inv
  let st2 := assert_equal_extension r1.2 r1.1 one
  (inv, st2)

/-- Embedding of `CircuitBuilder::div_extension`: `x * inverse(y)`. -/
def div_extension (st : CB F E) (x y : ETarget E) : ETarget E × CB F E :=
  let r0 := inverse_extension φ st y
  mul_extension φ r0.2 x r0.1

/-- Embedding of `CircuitBuilder::div_unsafe_extension`: witnesses
`q = x / y` through a quotient generator and enforces `q * y = x`. -/
def div_unsafe_extension (st : CB F E) (x y : ETarget E) :
    ETarget E × CB F E :=
  let r0 := add_virtual_extension_target st
  let quotient := r0.1
  let st1 := add_quotient_generator r0.2 x y quotient
  let r1 := mul_extension φ st1 quotient y
  let st2 := assert_equal_extension r1.2 r1.1 x
  (quotient, st2)

/-- Embedding of `PowersTarget`: the stored base and the next power to
emit. -/
structure PowersTarget (E : Type) where
  base : ETarget E
  current : ETarget E

/-- Embedding of `PowersTarget::next`: returns the stored current target and
replaces it by `base * current` through one multiplication gate. -/
def powersNext (st : CB F E) (p : PowersTarget E) :
    ETarget E × PowersTarget E × CB F E :=
  let result := p.current
  let r := mul_extension φ st p.base p.current
  (result, ⟨p.base, r.1⟩, r.2)

/-- Embedding of `CircuitBuilder::powers`: an iterator starting at the
extension one. -/
def powers (base : ETarget E) : PowersTarget E :=
  ⟨base, one_extension⟩

/-- Successive emissions of the powers iterator: the list of targets
returned by `n` calls to `next`, with the final iterator and state. -/
def powersEmit (st : CB F E) (p : PowersTarget E) :
    Nat → List (ETarget E) × PowersTarget E × CB F E
  | 0 => ([], p, st)
  | n + 1 =>
    let r := powersNext φ st p
    let rest := powersEmit r.2.2 r.2.1 n
    (r.1 :: rest.1, rest.2.1, rest.2.2)

theorem evalT_konst (st : CB F E) (v : E) : evalT st (ETarget.konst v) = v := rfl

theorem evalT_zero (st : CB F E) : evalT st (zero_extension : ETarget E) = 0 := rfl

theorem evalT_one (st : CB F E) : evalT st (one_extension : ETarget E) = 1 := rfl

theorem tB_konst (st : CB F E) (v : E) : tB st (ETarget.konst v) := trivial

theorem target_as_constant_ext_some {t : ETarget E} {v : E}
    (h : target_as_constant_ext t = some v) : t = ETarget.konst v := by
  cases t <;> simp [target_as_constant_ext] at h <;> simp [h]

theorem isOneTimes_true {c0 : F} {o : Option E}
    (h : isOneTimes φ c0 o = true) : ∃ x, o = some x ∧ x * φ c0 = 1 := by
  cases o with
  | none => simp [isOneTimes] at h
  | some x => exact ⟨x, rfl, by simpa [isOneTimes] using h⟩

theorem first_term_zero_val {c0 : F} {m0 m1 : ETarget E}
    (h : first_term_zero c0 m0 m1) (st : CB F E) :
    φ c0 * evalT st m0 * evalT st m1 = 0 := by
  rcases h with h | h | h
  · simp [h]
  · simp [h, zero_extension, evalT_konst]
  · simp [h, zero_extension, evalT_konst]

theorem second_term_zero_val {c1 : F} {a : ETarget E}
    (h : second_term_zero c1 a) (st : CB F E) : φ c1 * evalT st a = 0 := by
  rcases h with h | h
  · simp [h]
  · simp [h, zero_extension, evalT_konst]

theorem first_term_const_val {c0 : F} {m0 m1 : ETarget E} {x : E}
    (h : first_term_const φ c0 m0 m1 = some x) (st : CB F E) :
    x = φ c0 * evalT st m0 * evalT st m1 := by
  unfold first_term_const at h
  split at h
  · rename_i hz
    rw [first_term_zero_val φ hz st]
    exact (Option.some_inj.mp h).symm
  · split at h
    · rename_i x0 y0 h0 h1
      rw [target_as_constant_ext_some h0, target_as_constant_ext_some h1]
      rw [evalT_konst, evalT_konst]
      rw [← Option.some_inj.mp h]; ring
    · exact absurd h (by simp)

theorem second_term_const_val {c1 : F} {a : ETarget E} {y : E}
    (h : second_term_const φ c1 a = some y) (st : CB F E) :
    y = φ c1 * evalT st a := by
  unfold second_term_const at h
  split at h
  · rename_i hz
    rw [second_term_zero_val φ hz st]
    exact (Option.some_inj.mp h).symm
  · cases ha : target_as_constant_ext a with
    | none => rw [ha] at h; simp at h
    | some v =>
      rw [ha] at h; simp at h
      rw [target_as_constant_ext_some ha, evalT_konst, ← h]; ring

theorem special_cases_val {c0 c1 : F} {m0 m1 a r : ETarget E}
    (h : arithmetic_extension_special_cases φ c0 c1 m0 m1 a = some r)
    (st : CB F E) :
    evalT st r = φ c0 * evalT st m0 * evalT st m1 + φ c1 * evalT st a := by
  unfold arithmetic_extension_special_cases at h
  split at h
  · rename_i x y hx hy
    obtain rfl : ETarget.konst (x + y) = r := Option.some_inj.mp h
    rw [evalT_konst, first_term_const_val φ hx st, second_term_const_val φ hy st]
  · split at h
    · rename_i hfz
      obtain rfl : a = r := Option.some_inj.mp h
      rw [first_term_zero_val φ hfz.1 st, hfz.2]
      simp
    · split at h
      · rename_i hsz
        rw [second_term_zero_val φ hsz st]
        split at h
        · rename_i h1
          obtain ⟨x, hx, hone⟩ := isOneTimes_true φ h1
          have hr : r = m1 := (Option.some_inj.mp h).symm
          subst hr
          rw [target_as_constant_ext_some hx, evalT_konst, add_zero,
            mul_comm (φ c0) x, hone, one_mul]
        · split at h
          · rename_i h1
            obtain ⟨x, hx, hone⟩ := isOneTimes_true φ h1
            have hr : r = m0 := (Option.some_inj.mp h).symm
            subst hr
            rw [target_as_constant_ext_some hx, evalT_konst, add_zero,
              mul_right_comm, mul_comm (φ c0) x, hone, one_mul]
          · exact absurd h (by simp)
      · exact absurd h (by simp)

theorem special_cases_shape {c0 c1 : F} {m0 m1 a r : ETarget E}
    (h : arithmetic_extension_special_cases φ c0 c1 m0 m1 a = some r) :
    (∃ v, r = ETarget.konst v) ∨ r = a ∨ r = m1 ∨ r = m0 := by
  unfold arithmetic_extension_special_cases at h
  split at h
  · exact Or.inl ⟨_, (Option.some_inj.mp h).symm⟩
  · split at h
    · exact Or.inr (Or.inl (Option.some_inj.mp h).symm)
    · split at h
      · split at h
        · exact Or.inr (Or.inr (Or.inl (Option.some_inj.mp h).symm))
        · split at h
          · exact Or.inr (Or.inr (Or.inr (Option.some_inj.mp h).symm))
          · exact absurd h (by simp)
      · exact absurd h (by simp)

theorem arithmetic_extension_extends (st : CB F E) (c0 c1 : F)
    (m0 m1 a : ETarget E) :
    Extends st (arithmetic_extension φ st c0 c1 m0 m1 a).2 := by
  unfold arithmetic_extension
  cases h : arithmetic_extension_special_cases φ c0 c1 m0 m1 a with
  | some r => exact Extends.refl st
  | none => exact double_extends φ st c0 c1 m0 m1 a _ _ _

theorem arithmetic_extension_val {st : CB F E} (c0 c1 : F)
    {m0 m1 a : ETarget E} :
    evalT (arithmetic_extension φ st c0 c1 m0 m1 a).2
        (arithmetic_extension φ st c0 c1 m0 m1 a).1
      = φ c0 * evalT st m0 * evalT st m1 + φ c1 * evalT st a := by
  unfold arithmetic_extension
  cases h : arithmetic_extension_special_cases φ c0 c1 m0 m1 a with
  | some r => exact special_cases_val φ h st
  | none =>
    have := double_fst_val φ st c0 c1 m0 m1 a zero_extension zero_extension
      zero_extension
    simpa using this

theorem arithmetic_extension_tB {st : CB F E} (c0 c1 : F)
    {m0 m1 a : ETarget E} (hm0 : tB st m0) (hm1 : tB st m1) (ha : tB st a) :
    tB (arithmetic_extension φ st c0 c1 m0 m1 a).2
      (arithmetic_extension φ st c0 c1 m0 m1 a).1 := by
  unfold arithmetic_extension
  cases h : arithmetic_extension_special_cases φ c0 c1 m0 m1 a with
  | some r =>
    rcases special_cases_shape φ h with ⟨v, rfl⟩ | rfl | rfl | rfl
    · exact trivial
    · exact ha
    · exact hm1
    · exact hm0
  | none => exact double_out1_tB φ st c0 c1 m0 m1 a _ _ _

theorem mul_extension_numGates (st : CB F E) (m0 m1 : ETarget E) :
    (mul_extension φ st m0 m1).2.numGates = st.numGates + 1 := rfl

theorem mul_extension_virtCount (st : CB F E) (m0 m1 : ETarget E) :
    (mul_extension φ st m0 m1).2.virtCount = st.virtCount := rfl

theorem mul_extension_extends (st : CB F E) (m0 m1 : ETarget E) :
    Extends st (mul_extension φ st m0 m1).2 :=
  double_extends φ st 1 0 m0 m1 _ _ _ _

theorem mul_extension_tB (st : CB F E) (m0 m1 : ETarget E) :
    tB (mul_extension φ st m0 m1).2 (mul_extension φ st m0 m1).1 :=
  double_out1_tB φ st 1 0 m0 m1 _ _ _ _

theorem mul_extension_val (st : CB F E) (m0 m1 : ETarget E) :
    evalT (mul_extension φ st m0 m1).2 (mul_extension φ st m0 m1).1
      = evalT st m0 * evalT st m1 := by
  have := double_fst_val φ st 1 0 m0 m1 zero_extension zero_extension
    zero_extension zero_extension
  simpa using this

theorem mul_three_numGates (st : CB F E) (a b c : ETarget E) :
    (mul_three_extension φ st a b c).2.numGates = st.numGates + 1 := rfl

theorem mul_three_virtCount (st : CB F E) (a b c : ETarget E) :
    (mul_three_extension φ st a b c).2.virtCount = st.virtCount := rfl

theorem mul_three_extends (st : CB F E) (a b c : ETarget E) :
    Extends st (mul_three_extension φ st a b c).2 :=
  double_extends φ st 1 0 a b _ _ _ _

theorem mul_three_tB (st : CB F E) (a b c : ETarget E) :
    tB (mul_three_extension φ st a b c).2 (mul_three_extension φ st a b c).1 :=
  double_out2_tB φ st 1 0 a b _ _ _ _

theorem mul_three_val (st : CB F E) {c : ETarget E} (a b : ETarget E)
    (hc : tB st c) :
    evalT (mul_three_extension φ st a b c).2 (mul_three_extension φ st a b c).1
      = evalT st c * (evalT st a * evalT st b) := by
  have := @double_snd_val_sm1_selfref _ _ _ _ _ _ φ st 1 0 a b
    zero_extension c zero_extension hc (tB_konst st 0)
  simpa [mul_three_extension, evalT_zero] using this

theorem add_three_numGates (st : CB F E) (a b c : ETarget E) :
    (add_three_extension φ st a b c).2.numGates = st.numGates + 1 := rfl

theorem add_three_virtCount (st : CB F E) (a b c : ETarget E) :
    (add_three_extension φ st a b c).2.virtCount = st.virtCount := rfl

theorem add_three_extends (st : CB F E) (a b c : ETarget E) :
    Extends st (add_three_extension φ st a b c).2 :=
  double_extends φ st 1 1 _ a b _ c _

theorem add_three_tB (st : CB F E) (a b c : ETarget E) :
    tB (add_three_extension φ st a b c).2 (add_three_extension φ st a b c).1 :=
  double_out2_tB φ st 1 1 _ a b _ c _

theorem add_three_val (st : CB F E) {c : ETarget E} (a b : ETarget E)
    (hc : tB st c) :
    evalT (add_three_extension φ st a b c).2 (add_three_extension φ st a b c).1
      = evalT st c + (evalT st a + evalT st b) := by
  have := @double_snd_val_selfref _ _ _ _ _ _ φ st 1 1 one_extension a b
    one_extension c (tB_konst st 1) hc
  simpa [add_three_extension, evalT_one] using this

/-! Goldilocks extension-tower constants, from
`field/src/goldilocks_extensions.rs`, with field elements represented by
their canonical natural-number representatives. -/

/-- Modelled from the spec: the order of the Goldilocks base field (the
base-field module is an external collaborator; the spec and the sources fix
`p = 18446744069414584321`). -/
def goldilocksOrder : Nat := 18446744069414584321

/-- Fuel-driven square-and-multiply core of modular exponentiation. -/
def powModAux (m : Nat) : Nat → Nat → Nat → Nat
  | 0, _, _ => 1 % m
  | fuel + 1, b, e =>
    if e = 0 then 1 % m
    else
      let r := powModAux m fuel ((b * b) % m) (e / 2)
      if e % 2 = 1 then b % m * r % m else r

/-- Modelled from the spec: exact modular exponentiation `b ^ e mod m` of
base-field elements, the host arithmetic in which the `DTH_ROOT` constants
are computed; 64 squarings cover every exponent below the field order. -/
def powMod (b e m : Nat) : Nat := powModAux m 64 b e

theorem powModAux_correct (m : Nat) (fuel : Nat) :
    ∀ b e, e < 2 ^ fuel → powModAux m fuel b e = b ^ e % m := by
  induction fuel with
  | zero =>
    intro b e he
    interval_cases e
    simp [powModAux]
  | succ n ih =>
    intro b e he
    rcases Nat.eq_zero_or_pos e with rfl | hpos
    · simp [powModAux]
    · have hne : e ≠ 0 := Nat.pos_iff_ne_zero.mp hpos
      have hlt : e / 2 < 2 ^ n := by
        have h2 : e < 2 ^ n * 2 := by
          calc e < 2 ^ (n + 1) := he
            _ = 2 ^ n * 2 := by rw [Nat.pow_succ]
        omega
      have hrec := ih ((b * b) % m) (e / 2) hlt
      have hbb : ((b * b) % m) ^ (e / 2) % m = (b * b) ^ (e / 2) % m :=
        (Nat.pow_mod _ _ _).symm
      have hsplit : b ^ e = (b * b) ^ (e / 2) * b ^ (e % 2) := by
        rw [← Nat.pow_two, ← Nat.pow_mul, ← Nat.pow_add]
        congr 1
        omega
      rcases Nat.mod_two_eq_zero_or_one e with hpar | hpar
      · have : powModAux m (n + 1) b e = powModAux m n ((b * b) % m) (e / 2) := by
          simp [powModAux, hne, hpar]
        rw [this, hrec, hbb, hsplit, hpar, Nat.pow_zero, Nat.mul_one]
      · have : powModAux m (n + 1) b e
            = b % m * powModAux m n ((b * b) % m) (e / 2) % m := by
          simp [powModAux, hne, hpar]
        rw [this, hrec, hbb, hsplit, hpar, Nat.pow_one]
        conv_rhs => rw [Nat.mul_mod]
        rw [Nat.mul_comm (b % m)]

theorem powMod_correct (b e m : Nat) (he : e < 2 ^ 64) :
    powMod b e m = b ^ e % m :=
  powModAux_correct m 64 b e he

/-! Concrete instantiation used by the witness theorems: base and extension
field both `ZMod 11` (whose arithmetic evaluates by kernel reduction), the
identity embedding, and a start state with three assigned virtual input
targets. -/

instance : Fact (Nat.Prime 11) := ⟨by norm_num⟩

/-- Identity embedding for witness instantiations. -/
def qId : ZMod 11 →+* ZMod 11 := RingHom.id (ZMod 11)

/-- A concrete builder state: no gates, three virtual targets carrying the
values 3, 2 and 5. -/
def stW : CB (ZMod 11) (ZMod 11) :=
  ⟨0, 3, [(ETarget.virt 0, 3), (ETarget.virt 1, 2), (ETarget.virt 2, 5)],
   [], []⟩

theorem stW_tB0 : tB stW (ETarget.virt 0) := by show (0:Nat) < 3; decide

theorem stW_tB1 : tB stW (ETarget.virt 1) := by show (1:Nat) < 3; decide

theorem stW_tB2 : tB stW (ETarget.virt 2) := by show (2:Nat) < 3; decide

/-- `Extendable<2> for GoldilocksField`: the non-residue `W = 7`. -/
def goldilocksExtendable2W : Nat := 7

/-- `Extendable<2> for GoldilocksField`: `DTH_ROOT`. -/
def goldilocksExtendable2DthRoot : Nat := 18446744069414584320

/-- `Extendable<4> for GoldilocksField`: the non-residue `W = 7`. -/
def goldilocksExtendable4W : Nat := 7

/-- `Extendable<4> for GoldilocksField`: `DTH_ROOT`. -/
def goldilocksExtendable4DthRoot : Nat := 281474976710656

/-- `Extendable<5> for GoldilocksField`: the non-residue `W = 3`. -/
def goldilocksExtendable5W : Nat := 3

/-- `Extendable<5> for GoldilocksField`: `DTH_ROOT`. -/
def goldilocksExtendable5DthRoot : Nat := 1041288259238279555

/-- C9: in the Goldilocks field of order `p = 18446744069414584321`, each
`Extendable` instantiation declares `DTH_ROOT = W ^ ((p - 1) / D)` computed
by exact modular arithmetic: `7 ^ ((p-1)/2) = 18446744069414584320` for
`D = 2`, `7 ^ ((p-1)/4) = 281474976710656` for `D = 4`, and
`3 ^ ((p-1)/5) = 1041288259238279555` for `D = 5`. -/
theorem goldilocks_dth_root_constants :
    goldilocksExtendable2W ^ ((goldilocksOrder - 1) / 2) % goldilocksOrder
        = goldilocksExtendable2DthRoot
    ∧ goldilocksExtendable4W ^ ((goldilocksOrder - 1) / 4) % goldilocksOrder
        = goldilocksExtendable4DthRoot
    ∧ goldilocksExtendable5W ^ ((goldilocksOrder - 1) / 5) % goldilocksOrder
        = goldilocksExtendable5DthRoot := by
  refine ⟨?_, ?_, ?_⟩
  · rw [← powMod_correct goldilocksExtendable2W ((goldilocksOrder - 1) / 2)
      goldilocksOrder (by decide)]
    decide
  · rw [← powMod_correct goldilocksExtendable4W ((goldilocksOrder - 1) / 4)
      goldilocksOrder (by decide)]
    decide
  · rw [← powMod_correct goldilocksExtendable5W ((goldilocksOrder - 1) / 5)
      goldilocksOrder (by decide)]
    decide

/-- C10: `add_three_extension` returns a target carrying `a + b + c` and
`mul_three_extension` one carrying `a * b * c`, each allocating exactly one
`ArithmeticExtensionGate`: each helper predicts the next gate index,
passes that gate's first-output wire range as an operand of the second
fused operation, and `double_arithmetic_extension` unconditionally
allocates a gate at exactly that index, so the returned target is the
second output of the predicted gate. -/
theorem three_operand_single_gate (st : CB F E) (a b c : ETarget E)
    (ha : tB st a) (hb : tB st b) (hc : tB st c) :
    (add_three_extension φ st a b c).2.numGates = st.numGates + 1
    ∧ (add_three_extension φ st a b c).1 = ETarget.wire st.numGates 7
    ∧ evalT (add_three_extension φ st a b c).2
        (add_three_extension φ st a b c).1
        = evalT st a + evalT st b + evalT st c
    ∧ (mul_three_extension φ st a b c).2.numGates = st.numGates + 1
    ∧ (mul_three_extension φ st a b c).1 = ETarget.wire st.numGates 7
    ∧ evalT (mul_three_extension φ st a b c).2
        (mul_three_extension φ st a b c).1
        = evalT st a * evalT st b * evalT st c
    ∧ (∀ (c0 c1 : F) (fm0 fm1 fa sm0 sm1 sa : ETarget E),
        (double_arithmetic_extension φ st c0 c1 fm0 fm1 fa sm0 sm1 sa).2.numGates
          = st.numGates + 1
        ∧ (double_arithmetic_extension φ st c0 c1 fm0 fm1 fa sm0 sm1 sa).1.1
          = ETarget.wire st.numGates 6) := by
  refine ⟨rfl, rfl, ?_, rfl, rfl, ?_, fun c0 c1 fm0 fm1 fa sm0 sm1 sa => ⟨rfl, rfl⟩⟩
  · rw [add_three_val φ st a b hc]; ring
  · rw [mul_three_val φ st a b hc]; ring

theorem three_operand_single_gate_witness :
    evalT (add_three_extension qId stW (ETarget.virt 0) (ETarget.virt 1)
        (ETarget.virt 2)).2
      (add_three_extension qId stW (ETarget.virt 0) (ETarget.virt 1)
        (ETarget.virt 2)).1 = 10
    ∧ evalT (mul_three_extension qId stW (ETarget.virt 0) (ETarget.virt 1)
        (ETarget.virt 2)).2
      (mul_three_extension qId stW (ETarget.virt 0) (ETarget.virt 1)
        (ETarget.virt 2)).1 = 8 := by
  have h := three_operand_single_gate qId stW (ETarget.virt 0)
    (ETarget.virt 1) (ETarget.virt 2) stW_tB0 stW_tB1 stW_tB2
  refine ⟨?_, ?_⟩
  · rw [h.2.2.1]; decide
  · rw [h.2.2.2.2.2.1]; decide

/-- C4: with the addend term structurally zero and the first term not
resolvable as a constant, a compile-time-constant multiplicand `x`
satisfying `x * const_0 = 1` makes the call return the other multiplicand
unchanged without allocating a gate, in either multiplicand position. -/
theorem arithmetic_extension_identity_elimination (st : CB F E) (c0 c1 : F)
    (m0 m1 a : ETarget E) (hstz : second_term_zero c1 a)
    (hftz : ¬ first_term_zero c0 m0 m1) :
    (∀ x, target_as_constant_ext m0 = some x → x * φ c0 = 1 →
      target_as_constant_ext m1 = none →
      arithmetic_extension φ st c0 c1 m0 m1 a = (m1, st))
    ∧ (∀ x, target_as_constant_ext m1 = some x → x * φ c0 = 1 →
      target_as_constant_ext m0 = none →
      arithmetic_extension φ st c0 c1 m0 m1 a = (m0, st)) := by
  have h2 : second_term_const φ c1 a = some 0 := by
    unfold second_term_const
    rw [if_pos hstz]
  constructor
  · intro x hx hone hm1
    have h1 : first_term_const φ c0 m0 m1 = none := by
      unfold first_term_const
      rw [if_neg hftz, hx, hm1]
    have hsp : arithmetic_extension_special_cases φ c0 c1 m0 m1 a = some m1 := by
      unfold arithmetic_extension_special_cases
      rw [h1, h2]
      rw [if_neg (fun hand => hftz hand.1), if_pos hstz]
      simp [isOneTimes, hx, hone]
    unfold arithmetic_extension
    rw [hsp]
  · intro x hx hone hm0
    have h1 : first_term_const φ c0 m0 m1 = none := by
      unfold first_term_const
      rw [if_neg hftz, hx, hm0]
    have hsp : arithmetic_extension_special_cases φ c0 c1 m0 m1 a = some m0 := by
      unfold arithmetic_extension_special_cases
      rw [h1, h2]
      rw [if_neg (fun hand => hftz hand.1), if_pos hstz]
      simp [isOneTimes, hx, hone, hm0]
    unfold arithmetic_extension
    rw [hsp]

theorem arithmetic_extension_identity_elimination_witness :
    arithmetic_extension qId stW 2 0 (ETarget.konst 6) (ETarget.virt 0)
        (ETarget.virt 1) = (ETarget.virt 0, stW)
    ∧ arithmetic_extension qId stW 2 0 (ETarget.virt 0)
        (ETarget.konst 6) (ETarget.virt 1) = (ETarget.virt 0, stW) := by
  constructor
  · exact (arithmetic_extension_identity_elimination qId stW 2 0
      (ETarget.konst 6) (ETarget.virt 0) (ETarget.virt 1)
      (Or.inl rfl) (by decide)).1 6 rfl (by decide) rfl
  · exact (arithmetic_extension_identity_elimination qId stW 2 0
      (ETarget.virt 0) (ETarget.konst 6) (ETarget.virt 1)
      (Or.inl rfl) (by decide)).2 6 rfl (by decide) rfl

/-- C3 (counterexample): with `const_0 = 0` but `const_1 = 2` and a
non-constant addend, `arithmetic_extension` does allocate a gate, so the
blanket zero-gate statement of the claim fails. -/
theorem arithmetic_extension_const0_zero_cex :
    (arithmetic_extension qId stW 0 2 (ETarget.virt 0) (ETarget.virt 0)
      (ETarget.virt 1)).2.numGates ≠ stW.numGates := by
  decide

/-- C3 (amended): with `const_0 = 0`, when the addend is a compile-time
constant the call allocates no gate and returns a constant target carrying
`const_1 * addend`, and when `const_1 = 1` it allocates no gate and
returns the addend target unchanged; for other combinations a gate may
still be allocated. -/
theorem arithmetic_extension_const0_zero (st : CB F E) (c1 : F)
    (m0 m1 a : ETarget E) :
    ((∃ v, target_as_constant_ext a = some v) →
      (arithmetic_extension φ st 0 c1 m0 m1 a).2 = st
      ∧ evalT st (arithmetic_extension φ st 0 c1 m0 m1 a).1
          = φ c1 * evalT st a)
    ∧ (c1 = 1 → arithmetic_extension φ st 0 c1 m0 m1 a = (a, st)) := by
  have hftz : first_term_zero (0 : F) m0 m1 := Or.inl rfl
  have h1 : first_term_const φ (0 : F) m0 m1 = some 0 := by
    unfold first_term_const
    rw [if_pos hftz]
  constructor
  · rintro ⟨v, hv⟩
    by_cases hstz : second_term_zero c1 a
    · have h2 : second_term_const φ c1 a = some 0 := by
        unfold second_term_const
        rw [if_pos hstz]
      have hsp : arithmetic_extension_special_cases φ 0 c1 m0 m1 a
          = some (constant_extension (0 + 0)) := by
        unfold arithmetic_extension_special_cases
        rw [h1, h2]
      unfold arithmetic_extension
      rw [hsp]
      refine ⟨rfl, ?_⟩
      rw [second_term_zero_val φ hstz st]
      simp [constant_extension, evalT_konst]
    · have h2 : second_term_const φ c1 a = some (v * φ c1) := by
        unfold second_term_const
        rw [if_neg hstz, hv]
        rfl
      have hsp : arithmetic_extension_special_cases φ 0 c1 m0 m1 a
          = some (constant_extension (0 + v * φ c1)) := by
        unfold arithmetic_extension_special_cases
        rw [h1, h2]
      unfold arithmetic_extension
      rw [hsp]
      refine ⟨rfl, ?_⟩
      rw [target_as_constant_ext_some hv]
      simp [constant_extension, evalT_konst]
      ring
  · intro hc1
    subst hc1
    cases ha : target_as_constant_ext a with
    | some v =>
      by_cases hstz : second_term_zero (1 : F) a
      · have hv : a = ETarget.konst v := target_as_constant_ext_some ha
        have hz : a = zero_extension := by
          rcases hstz with h | h
          · exact absurd h one_ne_zero
          · exact h
        have h2 : second_term_const φ (1 : F) a = some 0 := by
          unfold second_term_const
          rw [if_pos hstz]
        have hsp : arithmetic_extension_special_cases φ 0 1 m0 m1 a
            = some (constant_extension (0 + 0)) := by
          unfold arithmetic_extension_special_cases
          rw [h1, h2]
        unfold arithmetic_extension
        rw [hsp, hz]
        simp [constant_extension, zero_extension]
      · have h2 : second_term_const φ (1 : F) a = some (v * φ 1) := by
          unfold second_term_const
          rw [if_neg hstz, ha]
          rfl
        have hsp : arithmetic_extension_special_cases φ 0 1 m0 m1 a
            = some (constant_extension (0 + v * φ 1)) := by
          unfold arithmetic_extension_special_cases
          rw [h1, h2]
        unfold arithmetic_extension
        rw [hsp, target_as_constant_ext_some ha]
        simp [constant_extension]
    | none =>
      have hstz : ¬ second_term_zero (1 : F) a := by
        rintro (h | h)
        · exact one_ne_zero h
        · rw [h] at ha
          simp [target_as_constant_ext, zero_extension] at ha
      have h2 : second_term_const φ (1 : F) a = none := by
        unfold second_term_const
        rw [if_neg hstz, ha]
        rfl
      have hsp : arithmetic_extension_special_cases φ 0 1 m0 m1 a = some a := by
        unfold arithmetic_extension_special_cases
        rw [h1, h2]
        rw [if_pos ⟨hftz, rfl⟩]
      unfold arithmetic_extension
      rw [hsp]

theorem arithmetic_extension_const0_zero_witness :
    ((arithmetic_extension qId stW 0 4 (ETarget.virt 0) (ETarget.virt 1)
        (ETarget.konst 5)).2 = stW
      ∧ evalT stW (arithmetic_extension qId stW 0 4 (ETarget.virt 0)
          (ETarget.virt 1) (ETarget.konst 5)).1 = 9)
    ∧ arithmetic_extension qId stW 0 1 (ETarget.virt 0) (ETarget.virt 1)
        (ETarget.virt 2) = (ETarget.virt 2, stW) := by
  have h := arithmetic_extension_const0_zero qId stW (4 : ZMod 11) (ETarget.virt 0)
    (ETarget.virt 1) (ETarget.konst 5)
  have h2 := arithmetic_extension_const0_zero qId stW (1 : ZMod 11) (ETarget.virt 0)
    (ETarget.virt 1) (ETarget.virt 2)
  refine ⟨?_, h2.2 rfl⟩
  have hc := h.1 ⟨5, rfl⟩
  refine ⟨hc.1, ?_⟩
  rw [hc.2]
  decide

/-- C5 (counterexample): `mul_extension` does not perform the special-case
short-circuiting, so its effect on the builder state differs from
`arithmetic_extension(1, 0, a, b, zero)`: with `a` the constant zero
target, the former allocates a gate and the latter does not. -/
theorem mul_vs_arithmetic_cex :
    (mul_extension qId stW (ETarget.konst 0) (ETarget.virt 0)).2.numGates
      ≠ (arithmetic_extension qId stW 1 0 (ETarget.konst 0) (ETarget.virt 0)
        zero_extension).2.numGates := by
  decide

/-- The left-to-right pairwise product loop of the reference test: fold
`mul_extension` over the terms starting from a given accumulator. -/
def mulFold (st : CB F E) (acc : ETarget E) :
    List (ETarget E) → ETarget E × CB F E
  | [] => (acc, st)
  | t :: ts => mulFold (mul_extension φ st acc t).2 (mul_extension φ st acc t).1 ts

theorem foldl_mul_eq (l : List E) : ∀ x : E, l.foldl (· * ·) x = x * l.prod := by
  induction l with
  | nil => intro x; simp
  | cons a as ih => intro x; simp only [List.foldl_cons, List.prod_cons, ih]; ring

theorem foldl_add_eq (l : List E) : ∀ x : E, l.foldl (· + ·) x = x + l.sum := by
  induction l with
  | nil => intro x; simp
  | cons a as ih => intro x; simp only [List.foldl_cons, List.sum_cons, ih]; ring

theorem mulFold_spec : ∀ (ts : List (ETarget E)) (st : CB F E)
    (acc : ETarget E), tB st acc → (∀ t ∈ ts, tB st t) →
    Extends st (mulFold φ st acc ts).2
    ∧ tB (mulFold φ st acc ts).2 (mulFold φ st acc ts).1
    ∧ evalT (mulFold φ st acc ts).2 (mulFold φ st acc ts).1
      = (ts.map (evalT st)).foldl (· * ·) (evalT st acc) := by
  intro ts
  induction ts with
  | nil => exact fun st acc hacc _ => ⟨Extends.refl st, hacc, rfl⟩
  | cons t ts ih =>
    intro st acc hacc hts
    have hext := mul_extension_extends φ st acc t
    obtain ⟨hext2, htb2, hval2⟩ := ih (mul_extension φ st acc t).2
      (mul_extension φ st acc t).1 (mul_extension_tB φ st acc t)
      (fun u hu => tB_mono hext (hts u (List.mem_cons_of_mem t hu)))
    refine ⟨Extends.trans hext hext2, htb2, ?_⟩
    show evalT (mulFold φ _ _ ts).2 (mulFold φ _ _ ts).1 = _
    rw [hval2, mul_extension_val φ st acc t]
    simp only [List.map_cons, List.foldl_cons]
    congr 1
    exact List.map_congr_left fun u hu =>
      hext.pres u (hts u (List.mem_cons_of_mem t hu))

theorem manyLoop_cons2 (step : CB F E → ETarget E → ETarget E → ETarget E →
    ETarget E × CB F E) (st : CB F E) (acc t1 t2 : ETarget E)
    (rest : List (ETarget E)) :
    manyLoop step st acc (t1 :: t2 :: rest)
      = manyLoop step (step st acc t1 t2).2 (step st acc t1 t2).1 rest := rfl

theorem manyLoop_mul_spec (k : Nat) : ∀ (ts : List (ETarget E)),
    ts.length ≤ k → ts.length % 2 = 0 → ∀ (st : CB F E) (acc : ETarget E),
    tB st acc → (∀ t ∈ ts, tB st t) →
    Extends st (manyLoop (mul_three_extension φ) st acc ts).2
    ∧ tB (manyLoop (mul_three_extension φ) st acc ts).2
        (manyLoop (mul_three_extension φ) st acc ts).1
    ∧ evalT (manyLoop (mul_three_extension φ) st acc ts).2
        (manyLoop (mul_three_extension φ) st acc ts).1
      = (ts.map (evalT st)).foldl (· * ·) (evalT st acc) := by
  induction k with
  | zero =>
    intro ts hlen _ st acc hacc _
    have : ts = [] := List.length_eq_zero.mp (Nat.le_zero.mp hlen)
    subst this
    exact ⟨Extends.refl st, hacc, rfl⟩
  | succ k ih =>
    intro ts hlen hpar st acc hacc hts
    match ts with
    | [] => exact ⟨Extends.refl st, hacc, rfl⟩
    | [t] => simp at hpar
    | t1 :: t2 :: rest =>
      rw [manyLoop_cons2]
      have h1 : tB st t1 := hts t1 (by simp)
      have h2 : tB st t2 := hts t2 (by simp)
      have hext := mul_three_extends φ st acc t1 t2
      have hrlen : rest.length ≤ k := by
        simp only [List.length_cons] at hlen; omega
      have hrpar : rest.length % 2 = 0 := by
        simp only [List.length_cons] at hpar; omega
      obtain ⟨hext2, htb2, hval2⟩ := ih rest hrlen hrpar
        (mul_three_extension φ st acc t1 t2).2
        (mul_three_extension φ st acc t1 t2).1
        (mul_three_tB φ st acc t1 t2)
        (fun u hu => tB_mono hext (hts u (by simp [hu])))
      refine ⟨Extends.trans hext hext2, htb2, ?_⟩
      rw [hval2, mul_three_val φ st acc t1 h2]
      have hmaps : rest.map (evalT (mul_three_extension φ st acc t1 t2).2)
          = rest.map (evalT st) :=
        List.map_congr_left fun u hu => hext.pres u (hts u (by simp [hu]))
      rw [hmaps]
      simp only [List.map_cons, List.foldl_cons]
      congr 1
      ring

theorem exists_cons3 {α : Type _} {l : List α} (h : 3 ≤ l.length) :
    ∃ a b c r, l = a :: b :: c :: r := by
  match l with
  | [] => simp at h
  | [a] => simp at h
  | [a, b] => simp at h
  | a :: b :: c :: r => exact ⟨a, b, c, r, rfl⟩

theorem mul_many_red (st : CB F E) (terms : List (ETarget E))
    (hemp : terms.isEmpty = false) {t0 t1 t2 : ETarget E}
    {rest : List (ETarget E)}
    (hdec : (if terms.length < 3 then
        terms ++ List.replicate (3 - terms.length) one_extension
      else if terms.length % 2 = 0 then terms ++ [one_extension]
      else terms) = t0 :: t1 :: t2 :: rest) :
    mul_many_extension φ st terms
      = manyLoop (mul_three_extension φ) (mul_three_extension φ st t0 t1 t2).2
          (mul_three_extension φ st t0 t1 t2).1 rest := by
  unfold mul_many_extension
  rw [hemp]
  simp only [Bool.false_eq_true, if_false]
  rw [hdec]

/-- C6: for every list of terms, the target returned by
`mul_many_extension` carries the host-computed product of the assigned
values, the left-to-right pairwise `mul_extension` fold carries the same
product, and the empty list returns the extension one outright. -/
theorem mul_many_equivalence (st : CB F E) (terms : List (ETarget E))
    (hterms : ∀ t ∈ terms, tB st t) :
    evalT (mul_many_extension φ st terms).2 (mul_many_extension φ st terms).1
      = (terms.map (evalT st)).prod
    ∧ evalT (mulFold φ st one_extension terms).2
        (mulFold φ st one_extension terms).1 = (terms.map (evalT st)).prod
    ∧ mul_many_extension φ st ([] : List (ETarget E))
        = (one_extension, st) := by
  refine ⟨?_, ?_, rfl⟩
  · cases hemp : terms.isEmpty with
    | true =>
      have : terms = [] := List.isEmpty_iff.mp hemp
      subst this
      simp [mul_many_extension, evalT_one]
    | false =>
      have hne : terms ≠ [] := fun h => by subst h; simp at hemp
      have hlen0 : 1 ≤ terms.length := by
        cases terms with
        | nil => exact absurd rfl hne
        | cons u us => simp
      -- the normalised term list
      set ts : List (ETarget E) :=
        if terms.length < 3 then
          terms ++ List.replicate (3 - terms.length) one_extension
        else if terms.length % 2 = 0 then terms ++ [one_extension]
        else terms with hts
      have htslen : 3 ≤ ts.length ∧ ts.length % 2 = 1 := by
        rw [hts]
        split
        · simp only [List.length_append, List.length_replicate]
          omega
        · split
          · simp only [List.length_append, List.length_cons, List.length_nil]
            omega
          · omega
      have htsB : ∀ t ∈ ts, tB st t := by
        intro t ht
        rw [hts] at ht
        have hone : ∀ u : ETarget E, u ∈ [(one_extension : ETarget E)]
            → tB st u := by
          intro u hu
          rw [List.mem_singleton] at hu
          subst hu
          exact trivial
        split at ht
        · rcases List.mem_append.mp ht with h | h
          · exact hterms t h
          · rw [List.eq_of_mem_replicate h]; exact trivial
        · split at ht
          · rcases List.mem_append.mp ht with h | h
            · exact hterms t h
            · rw [List.mem_singleton.mp h]; exact trivial
          · exact hterms t ht
      have htsprod : (ts.map (evalT st)).prod = (terms.map (evalT st)).prod := by
        rw [hts]
        split
        · simp [List.map_append, List.prod_append, List.map_replicate,
            evalT_one]
        · split
          · simp [List.map_append, List.prod_append, evalT_one]
          · rfl
      obtain ⟨t0, t1, t2, rest, hdec⟩ := exists_cons3 htslen.1
      have hred : mul_many_extension φ st terms
          = manyLoop (mul_three_extension φ)
              (mul_three_extension φ st t0 t1 t2).2
              (mul_three_extension φ st t0 t1 t2).1 rest :=
        mul_many_red φ st terms hemp (hts.symm.trans hdec)
      have hB0 : tB st t0 := htsB t0 (by rw [hdec]; simp)
      have hB1 : tB st t1 := htsB t1 (by rw [hdec]; simp)
      have hB2 : tB st t2 := htsB t2 (by rw [hdec]; simp)
      have hBr : ∀ t ∈ rest, tB st t := fun t ht =>
        htsB t (by rw [hdec]; simp [ht])
      have hext := mul_three_extends φ st t0 t1 t2
      have hrpar : rest.length % 2 = 0 := by
        have := htslen.2
        rw [hdec] at this
        simp only [List.length_cons] at this
        omega
      obtain ⟨hext2, htb2, hval2⟩ := manyLoop_mul_spec φ rest.length rest
        (Nat.le_refl _) hrpar (mul_three_extension φ st t0 t1 t2).2
        (mul_three_extension φ st t0 t1 t2).1
        (mul_three_tB φ st t0 t1 t2)
        (fun u hu => tB_mono hext (hBr u hu))
      rw [hred, hval2, mul_three_val φ st t0 t1 hB2]
      have hmaps : rest.map (evalT (mul_three_extension φ st t0 t1 t2).2)
          = rest.map (evalT st) :=
        List.map_congr_left fun u hu => hext.pres u (hBr u hu)
      rw [hmaps, foldl_mul_eq, ← htsprod, hdec]
      simp only [List.map_cons, List.prod_cons]
      ring
  · obtain ⟨hext, htb, hval⟩ := mulFold_spec φ terms st one_extension
      (tB_konst st 1) hterms
    rw [hval, evalT_one, foldl_mul_eq, one_mul]

theorem mul_many_equivalence_witness :
    evalT (mul_many_extension qId stW [ETarget.virt 0, ETarget.virt 1,
        ETarget.virt 2]).2
      (mul_many_extension qId stW [ETarget.virt 0, ETarget.virt 1,
        ETarget.virt 2]).1 = 8
    ∧ evalT (mulFold qId stW one_extension [ETarget.virt 0, ETarget.virt 1,
        ETarget.virt 2]).2
      (mulFold qId stW one_extension [ETarget.virt 0, ETarget.virt 1,
        ETarget.virt 2]).1 = 8 := by
  have h := mul_many_equivalence qId stW
    [ETarget.virt 0, ETarget.virt 1, ETarget.virt 2] (by
      intro t ht
      simp only [List.mem_cons, List.not_mem_nil, or_false] at ht
      rcases ht with rfl | rfl | rfl
      · exact stW_tB0
      · exact stW_tB1
      · exact stW_tB2)
  constructor
  · rw [h.1]; decide
  · rw [h.2.1]; decide

theorem manyLoop_add_spec (k : Nat) : ∀ (ts : List (ETarget E)),
    ts.length ≤ k → ts.length % 2 = 0 → ∀ (st : CB F E) (acc : ETarget E),
    tB st acc → (∀ t ∈ ts, tB st t) →
    Extends st (manyLoop (add_three_extension φ) st acc ts).2
    ∧ tB (manyLoop (add_three_extension φ) st acc ts).2
        (manyLoop (add_three_extension φ) st acc ts).1
    ∧ evalT (manyLoop (add_three_extension φ) st acc ts).2
        (manyLoop (add_three_extension φ) st acc ts).1
      = (ts.map (evalT st)).foldl (· + ·) (evalT st acc) := by
  induction k with
  | zero =>
    intro ts hlen _ st acc hacc _
    have : ts = [] := List.length_eq_zero.mp (Nat.le_zero.mp hlen)
    subst this
    exact ⟨Extends.refl st, hacc, rfl⟩
  | succ k ih =>
    intro ts hlen hpar st acc hacc hts
    match ts with
    | [] => exact ⟨Extends.refl st, hacc, rfl⟩
    | [t] => simp at hpar
    | t1 :: t2 :: rest =>
      rw [manyLoop_cons2]
      have h1 : tB st t1 := hts t1 (by simp)
      have h2 : tB st t2 := hts t2 (by simp)
      have hext := add_three_extends φ st acc t1 t2
      have hrlen : rest.length ≤ k := by
        simp only [List.length_cons] at hlen; omega
      have hrpar : rest.length % 2 = 0 := by
        simp only [List.length_cons] at hpar; omega
      obtain ⟨hext2, htb2, hval2⟩ := ih rest hrlen hrpar
        (add_three_extension φ st acc t1 t2).2
        (add_three_extension φ st acc t1 t2).1
        (add_three_tB φ st acc t1 t2)
        (fun u hu => tB_mono hext (hts u (by simp [hu])))
      refine ⟨Extends.trans hext hext2, htb2, ?_⟩
      rw [hval2, add_three_val φ st acc t1 h2]
      have hmaps : rest.map (evalT (add_three_extension φ st acc t1 t2).2)
          = rest.map (evalT st) :=
        List.map_congr_left fun u hu => hext.pres u (hts u (by simp [hu]))
      rw [hmaps]
      simp only [List.map_cons, List.foldl_cons]
      congr 1
      ring

theorem add_many_red (st : CB F E) (terms : List (ETarget E))
    (hemp : terms.isEmpty = false) {t0 t1 t2 : ETarget E}
    {rest : List (ETarget E)}
    (hdec : (if terms.length < 3 then
        terms ++ List.replicate (3 - terms.length) zero_extension
      else if terms.length % 2 = 0 then terms ++ [zero_extension]
      else terms) = t0 :: t1 :: t2 :: rest) :
    add_many_extension φ st terms
      = manyLoop (add_three_extension φ) (add_three_extension φ st t0 t1 t2).2
          (add_three_extension φ st t0 t1 t2).1 rest := by
  unfold add_many_extension
  rw [hemp]
  simp only [Bool.false_eq_true, if_false]
  rw [hdec]

/-- `add_many_extension` sums the values of its terms. -/
theorem add_many_spec (st : CB F E) (terms : List (ETarget E))
    (hterms : ∀ t ∈ terms, tB st t) :
    Extends st (add_many_extension φ st terms).2
    ∧ tB (add_many_extension φ st terms).2 (add_many_extension φ st terms).1
    ∧ evalT (add_many_extension φ st terms).2
        (add_many_extension φ st terms).1 = (terms.map (evalT st)).sum := by
  cases hemp : terms.isEmpty with
  | true =>
    have : terms = [] := List.isEmpty_iff.mp hemp
    subst this
    refine ⟨Extends.refl st, trivial, ?_⟩
    simp [add_many_extension, evalT_zero]
  | false =>
    have hne : terms ≠ [] := fun h => by subst h; simp at hemp
    have hlen0 : 1 ≤ terms.length := by
      cases terms with
      | nil => exact absurd rfl hne
      | cons u us => simp
    set ts : List (ETarget E) :=
      if terms.length < 3 then
        terms ++ List.replicate (3 - terms.length) zero_extension
      else if terms.length % 2 = 0 then terms ++ [zero_extension]
      else terms with hts
    have htslen : 3 ≤ ts.length ∧ ts.length % 2 = 1 := by
      rw [hts]
      split
      · simp only [List.length_append, List.length_replicate]
        omega
      · split
        · simp only [List.length_append, List.length_cons, List.length_nil]
          omega
        · omega
    have htsB : ∀ t ∈ ts, tB st t := by
      intro t ht
      rw [hts] at ht
      split at ht
      · rcases List.mem_append.mp ht with h | h
        · exact hterms t h
        · rw [List.eq_of_mem_replicate h]; exact trivial
      · split at ht
        · rcases List.mem_append.mp ht with h | h
          · exact hterms t h
          · rw [List.mem_singleton.mp h]; exact trivial
        · exact hterms t ht
    have htssum : (ts.map (evalT st)).sum = (terms.map (evalT st)).sum := by
      rw [hts]
      split
      · simp [List.map_append, List.sum_append, List.map_replicate, evalT_zero]
      · split
        · simp [List.map_append, List.sum_append, evalT_zero]
        · rfl
    obtain ⟨t0, t1, t2, rest, hdec⟩ := exists_cons3 htslen.1
    have hred := add_many_red φ st terms hemp (hts.symm.trans hdec)
    have hB2 : tB st t2 := htsB t2 (by rw [hdec]; simp)
    have hBr : ∀ t ∈ rest, tB st t := fun t ht =>
      htsB t (by rw [hdec]; simp [ht])
    have hext := add_three_extends φ st t0 t1 t2
    have hrpar : rest.length % 2 = 0 := by
      have := htslen.2
      rw [hdec] at this
      simp only [List.length_cons] at this
      omega
    obtain ⟨hext2, htb2, hval2⟩ := manyLoop_add_spec φ rest.length rest
      (Nat.le_refl _) hrpar (add_three_extension φ st t0 t1 t2).2
      (add_three_extension φ st t0 t1 t2).1
      (add_three_tB φ st t0 t1 t2)
      (fun u hu => tB_mono hext (hBr u hu))
    rw [hred]
    refine ⟨Extends.trans hext hext2, htb2, ?_⟩
    rw [hval2, add_three_val φ st t0 t1 hB2]
    have hmaps : rest.map (evalT (add_three_extension φ st t0 t1 t2).2)
        = rest.map (evalT st) :=
      List.map_congr_left fun u hu => hext.pres u (hBr u hu)
    rw [hmaps, foldl_add_eq, ← htssum, hdec]
    simp only [List.map_cons, List.sum_cons]
    ring

theorem arithmetic_many_cons2 (st : CB F E) (c0 c1 : F)
    (p q : ETarget E × ETarget E × ETarget E)
    (rest : List (ETarget E × ETarget E × ETarget E)) :
    arithmetic_many_extension φ st c0 c1 (p :: q :: rest)
      = ((double_arithmetic_extension φ st c0 c1 p.1 p.2.1 p.2.2
            q.1 q.2.1 q.2.2).1.1
          :: (double_arithmetic_extension φ st c0 c1 p.1 p.2.1 p.2.2
            q.1 q.2.1 q.2.2).1.2
          :: (arithmetic_many_extension φ
              (double_arithmetic_extension φ st c0 c1 p.1 p.2.1 p.2.2
                q.1 q.2.1 q.2.2).2 c0 c1 rest).1,
         (arithmetic_many_extension φ
            (double_arithmetic_extension φ st c0 c1 p.1 p.2.1 p.2.2
              q.1 q.2.1 q.2.2).2 c0 c1 rest).2) := rfl

/-- `arithmetic_many_extension` computes the fused operation on each
operand triple, reading every operand in the state of the call. -/
theorem arithmetic_many_spec (k : Nat) :
    ∀ (ops : List (ETarget E × ETarget E × ETarget E)) (st : CB F E)
      (c0 c1 : F), ops.length ≤ k →
    (∀ p ∈ ops, tB st p.1 ∧ tB st p.2.1 ∧ tB st p.2.2) →
    Extends st (arithmetic_many_extension φ st c0 c1 ops).2
    ∧ (∀ r ∈ (arithmetic_many_extension φ st c0 c1 ops).1,
        tB (arithmetic_many_extension φ st c0 c1 ops).2 r)
    ∧ (arithmetic_many_extension φ st c0 c1 ops).1.map
        (evalT (arithmetic_many_extension φ st c0 c1 ops).2)
      = ops.map (fun p => φ c0 * evalT st p.1 * evalT st p.2.1
          + φ c1 * evalT st p.2.2) := by
  induction k with
  | zero =>
    intro ops st c0 c1 hlen _
    have : ops = [] := List.length_eq_zero.mp (Nat.le_zero.mp hlen)
    subst this
    exact ⟨Extends.refl st, by simp [arithmetic_many_extension], rfl⟩
  | succ k ih =>
    intro ops st c0 c1 hlen hops
    match ops with
    | [] => exact ⟨Extends.refl st, by simp [arithmetic_many_extension], rfl⟩
    | [p] =>
      obtain ⟨hp0, hp1, hp2⟩ := hops p (by simp)
      refine ⟨arithmetic_extension_extends φ st c0 c1 p.1 p.2.1 p.2.2, ?_, ?_⟩
      · intro r hr
        have : r = (arithmetic_extension φ st c0 c1 p.1 p.2.1 p.2.2).1 := by
          simpa [arithmetic_many_extension] using hr
        rw [this]
        exact arithmetic_extension_tB φ c0 c1 hp0 hp1 hp2
      · show [(arithmetic_extension φ st c0 c1 p.1 p.2.1 p.2.2).1].map
            (evalT (arithmetic_extension φ st c0 c1 p.1 p.2.1 p.2.2).2) = _
        simp only [List.map_cons, List.map_nil]
        rw [arithmetic_extension_val φ c0 c1]
    | p :: q :: rest =>
      rw [arithmetic_many_cons2]
      obtain ⟨hp0, hp1, hp2⟩ := hops p (by simp)
      obtain ⟨hq0, hq1, hq2⟩ := hops q (by simp)
      have hext := double_extends φ st c0 c1 p.1 p.2.1 p.2.2 q.1 q.2.1 q.2.2
      have hrlen : rest.length ≤ k := by
        simp only [List.length_cons] at hlen; omega
      obtain ⟨hext2, htb2, hmap2⟩ := ih rest
        (double_arithmetic_extension φ st c0 c1 p.1 p.2.1 p.2.2
          q.1 q.2.1 q.2.2).2 c0 c1 hrlen
        (fun u hu => ⟨tB_mono hext (hops u (by simp [hu])).1,
          tB_mono hext (hops u (by simp [hu])).2.1,
          tB_mono hext (hops u (by simp [hu])).2.2⟩)
      refine ⟨Extends.trans hext hext2, ?_, ?_⟩
      · intro r hr
        rcases List.mem_cons.mp hr with rfl | hr
        · exact tB_mono hext2 (double_out1_tB φ st c0 c1 _ _ _ _ _ _)
        rcases List.mem_cons.mp hr with rfl | hr
        · exact tB_mono hext2 (double_out2_tB φ st c0 c1 _ _ _ _ _ _)
        · exact htb2 r hr
      · simp only [List.map_cons]
        rw [hext2.pres _ (double_out1_tB φ st c0 c1 _ _ _ _ _ _),
          hext2.pres _ (double_out2_tB φ st c0 c1 _ _ _ _ _ _),
          double_fst_val φ, double_snd_val φ c0 c1 hq0 hq1 hq2, hmap2]
        refine congrArg (List.cons _) (congrArg (List.cons _) ?_)
        refine List.map_congr_left fun u hu => ?_
        have e0 := hext.pres u.1 (hops u (by simp [hu])).1
        have e1 := hext.pres u.2.1 (hops u (by simp [hu])).2.1
        have e2 := hext.pres u.2.2 (hops u (by simp [hu])).2.2
        simp only [e0, e1, e2]

/-- The final accumulation loop of `mul_ext_algebra`: one
`add_many_extension` per output coordinate, threading the builder state. -/
def addManyList (st : CB F E) :
    List (List (ETarget E)) → List (ETarget E) × CB F E
  | [] => ([], st)
  | l :: ls =>
    ((add_many_extension φ st l).1
        :: (addManyList (add_many_extension φ st l).2 ls).1,
     (addManyList (add_many_extension φ st l).2 ls).2)

theorem addManyList_spec : ∀ (ls : List (List (ETarget E))) (st : CB F E),
    (∀ l ∈ ls, ∀ t ∈ l, tB st t) →
    Extends st (addManyList φ st ls).2
    ∧ ∀ k, k < ls.length →
        evalT (addManyList φ st ls).2
            ((addManyList φ st ls).1.getD k (ETarget.konst 0))
          = ((ls.getD k []).map (evalT st)).sum := by
  intro ls
  induction ls with
  | nil =>
    intro st _
    exact ⟨Extends.refl st, fun k hk => absurd hk (Nat.not_lt_zero k)⟩
  | cons l ls ih =>
    intro st hls
    obtain ⟨hext1, htb1, hval1⟩ := add_many_spec φ st l
      (fun t ht => hls l (by simp) t ht)
    obtain ⟨hext2, hval2⟩ := ih (add_many_extension φ st l).2
      (fun u hu t ht => tB_mono hext1 (hls u (by simp [hu]) t ht))
    refine ⟨Extends.trans hext1 hext2, ?_⟩
    intro k hk
    cases k with
    | zero =>
      show evalT (addManyList φ _ ls).2 (add_many_extension φ st l).1
        = ((l :: ls).getD 0 [] |>.map (evalT st)).sum
      rw [hext2.pres _ htb1, hval1]
      rfl
    | succ k =>
      have hk2 : k < ls.length := Nat.lt_of_succ_lt_succ hk
      show evalT (addManyList φ _ ls).2
        ((addManyList φ _ ls).1.getD k (ETarget.konst 0)) = _
      rw [hval2 k hk2]
      show (List.map (evalT (add_many_extension φ st l).2) (ls.getD k [])).sum
        = (List.map (evalT st) ((l :: ls).getD (k + 1) [])).sum
      rw [List.getD_cons_succ]
      congr 1
      refine List.map_congr_left fun t ht => ?_
      exact hext1.pres t (hls (ls.getD k []) (by
        rw [List.getD_eq_getElem ls [] hk2]
        exact List.mem_cons_of_mem l (List.getElem_mem hk2)) t ht)

/-- The non-wrap index pairs of the D-by-D convolution, in push order:
for each `i`, the pairs `(i, j)` with `j < D - i`. -/
def convIdxPairs (D : Nat) : List (Nat × Nat) :=
  (List.range D).flatMap (fun i => (List.range (D - i)).map (fun j => (i, j)))

/-- The wrap index pairs of the convolution, in push order: for each `i`,
the pairs `(i, j)` with `D - i ≤ j < D`. -/
def convIdxPairsW (D : Nat) : List (Nat × Nat) :=
  (List.range D).flatMap
    (fun i => (List.range' (D - i) i).map (fun j => (i, j)))

/-- Embedding of `CircuitBuilder::mul_ext_algebra`: full D-by-D schoolbook
convolution of two second-tower elements.  The non-wrap products are
batched through one packed-many call with scale one, the wrap products
through another with scale `W`; each output coordinate `k` then
accumulates, via n-term addition, the products whose combined index is
congruent to `k` modulo `D`.  Within each bucket all non-wrap
contributions precede all wrap contributions, which is exactly the push
order of the source loop (a bucket receives non-wrap pushes only during
rounds `i` at most `k`, and wrap pushes only during later rounds). -/
def mul_ext_algebra (D : Nat) (W : F) (st : CB F E) (a b : Nat → ETarget E) :
    List (ETarget E) × CB F E :=
  let zero : ETarget E := zero_extension
  let r1 := arithmetic_many_extension φ st 1 1
    ((convIdxPairs D).map (fun p => (a p.1, b p.2, zero)))
  let r2 := arithmetic_many_extension φ r1.2 W 1
    ((convIdxPairsW D).map (fun p => (a p.1, b p.2, zero)))
  let toadd := fun k =>
    ((((convIdxPairs D).zip r1.1).filter
        (fun q => (q.1.1 + q.1.2) % D = k)).map Prod.snd)
    ++ ((((convIdxPairsW D).zip r2.1).filter
        (fun q => (q.1.1 + q.1.2) % D = k)).map Prod.snd)
  addManyList φ r2.2 ((List.range D).map toadd)

theorem sum_filter_map {α : Type _} (p : α → Bool) (f : α → E) :
    ∀ l : List α,
    ((l.filter p).map f).sum = (l.map (fun x => if p x then f x else 0)).sum := by
  intro l
  induction l with
  | nil => rfl
  | cons x xs ih =>
    cases hp : p x with
    | true => simp [List.filter_cons, hp, ih]
    | false => simp [List.filter_cons, hp, ih]

theorem zip_filter_vals {α : Type _} (ev : ETarget E → E) (g : α → E)
    (p : α → Bool) (P : α × ETarget E → Bool) (hP : ∀ x, P x = p x.1) :
    ∀ (idx : List α) (ms : List (ETarget E)),
    ms.map ev = idx.map g →
    ((((idx.zip ms).filter P).map Prod.snd).map ev)
      = (idx.filter p).map g := by
  intro idx
  induction idx with
  | nil => intro ms _; rfl
  | cons i idx ih =>
    intro ms hms
    cases ms with
    | nil => simp at hms
    | cons m ms =>
      simp only [List.map_cons, List.cons.injEq] at hms
      obtain ⟨hm, hms⟩ := hms
      show ((((i, m) :: idx.zip ms).filter P).map Prod.snd).map ev = _
      cases hp : p i with
      | true =>
        have hPim : P (i, m) = true := by rw [hP]; exact hp
        simp only [List.filter_cons, hPim, hp, if_true, List.map_cons]
        rw [ih ms hms, hm]
      | false =>
        have hPim : P (i, m) = false := by rw [hP]; exact hp
        simp only [List.filter_cons, hPim, hp, Bool.false_eq_true, if_false]
        rw [ih ms hms]

theorem sum_map_filter_flatMap {α β : Type _} (fn : α → List β) (p : β → Bool)
    (f : β → E) : ∀ l : List α,
    (((l.flatMap fn).filter p).map f).sum
      = (l.map (fun i => (((fn i).filter p).map f).sum)).sum := by
  intro l
  induction l with
  | nil => rfl
  | cons x xs ih =>
    rw [List.flatMap_cons, List.filter_append, List.map_append,
      List.sum_append, ih, List.map_cons, List.sum_cons]

theorem range_split (D i : Nat) (h : i ≤ D) :
    List.range D = List.range (D - i) ++ List.range' (D - i) i := by
  have h2 : i + (D - i) = D := by omega
  have h3 := List.range'_append 0 (D - i) i 1
  rw [List.range_eq_range', List.range_eq_range', ← h2, ← h3]
  norm_num

theorem sum_map_add {α : Type _} (f g : α → E) : ∀ l : List α,
    (l.map (fun x => f x + g x)).sum = (l.map f).sum + (l.map g).sum := by
  intro l
  induction l with
  | nil => simp
  | cons x xs ih => simp [ih]; ring

theorem convIdxPairs_mem (D : Nat) : ∀ p ∈ convIdxPairs D,
    p.1 < D ∧ p.2 < D ∧ p.1 + p.2 < D := by
  intro p hp
  unfold convIdxPairs at hp
  obtain ⟨i, hi, hpj⟩ := List.mem_flatMap.mp hp
  obtain ⟨j, hj, rfl⟩ := List.mem_map.mp hpj
  rw [List.mem_range] at hi
  rw [List.mem_range] at hj
  exact ⟨hi, by omega, by omega⟩

theorem convIdxPairsW_mem (D : Nat) : ∀ p ∈ convIdxPairsW D,
    p.1 < D ∧ p.2 < D ∧ D ≤ p.1 + p.2 := by
  intro p hp
  unfold convIdxPairsW at hp
  obtain ⟨i, hi, hpj⟩ := List.mem_flatMap.mp hp
  obtain ⟨j, hj, rfl⟩ := List.mem_map.mp hpj
  rw [List.mem_range] at hi
  rw [List.mem_range'_1] at hj
  exact ⟨hi, by omega, by omega⟩

/-- The pure-list form of the convolution: the scale-one sum over the
filtered non-wrap pairs plus the scale-`w` sum over the filtered wrap
pairs equals the double sum over all index pairs congruent to `k`. -/
theorem conv_list_identity (D k : Nat) (va vb : Nat → E) (w : E) :
    (((convIdxPairs D).filter
        (fun pr => decide ((pr.1 + pr.2) % D = k))).map
        (fun p => va p.1 * vb p.2)).sum
    + (((convIdxPairsW D).filter
        (fun pr => decide ((pr.1 + pr.2) % D = k))).map
        (fun p => w * (va p.1 * vb p.2))).sum
    = ((List.range D).map (fun i => ((List.range D).map (fun j =>
        if (i + j) % D = k then
          (if i + j < D then va i * vb j else w * (va i * vb j))
        else 0)).sum)).sum := by
  unfold convIdxPairs convIdxPairsW
  rw [sum_map_filter_flatMap, sum_map_filter_flatMap, ← sum_map_add]
  refine congrArg List.sum (List.map_congr_left fun i hi => ?_)
  rw [List.mem_range] at hi
  dsimp only
  rw [List.filter_map, List.filter_map, List.map_map, List.map_map,
    sum_filter_map, sum_filter_map, range_split D i (Nat.le_of_lt hi),
    List.map_append, List.sum_append]
  congr 1
  · refine congrArg List.sum (List.map_congr_left fun j hj => ?_)
    rw [List.mem_range] at hj
    have hlt : i + j < D := by omega
    by_cases hcond : (i + j) % D = k
    · simp [Function.comp, hcond, hlt]
    · simp [Function.comp, hcond]
  · refine congrArg List.sum (List.map_congr_left fun j hj => ?_)
    rw [List.mem_range'_1] at hj
    have hge : ¬ (i + j < D) := by omega
    by_cases hcond : (i + j) % D = k
    · simp [Function.comp, hcond, hge]
    · simp [Function.comp, hcond]

/-- C7: every output coordinate `k` of `mul_ext_algebra(a, b)` carries the
convolution value: the sum over all index pairs `(i, j)` with
`i + j` congruent to `k` modulo `D` of `a_i * b_j`, where each wrap
contribution (`i + j` at least `D`) is additionally multiplied by the
tower non-residue `W` and each non-wrap contribution has scale one. -/
theorem mul_ext_algebra_convolution (D : Nat) (W : F) (st : CB F E)
    (a b : Nat → ETarget E) (ha : ∀ i, i < D → tB st (a i))
    (hb : ∀ j, j < D → tB st (b j)) (k : Nat) (hk : k < D) :
    evalT (mul_ext_algebra φ D W st a b).2
        ((mul_ext_algebra φ D W st a b).1.getD k (ETarget.konst 0))
      = ((List.range D).map (fun i => ((List.range D).map (fun j =>
          if (i + j) % D = k then
            (if i + j < D then evalT st (a i) * evalT st (b j)
             else φ W * (evalT st (a i) * evalT st (b j)))
          else 0)).sum)).sum := by
  set ops1 : List (ETarget E × ETarget E × ETarget E) :=
    (convIdxPairs D).map
      (fun p => (a p.1, b p.2, (zero_extension : ETarget E))) with hops1def
  set r1 := arithmetic_many_extension φ st 1 1 ops1 with hr1def
  set ops2 : List (ETarget E × ETarget E × ETarget E) :=
    (convIdxPairsW D).map
      (fun p => (a p.1, b p.2, (zero_extension : ETarget E))) with hops2def
  set r2 := arithmetic_many_extension φ r1.2 W 1 ops2 with hr2def
  have hops1B : ∀ p ∈ ops1, tB st p.1 ∧ tB st p.2.1 ∧ tB st p.2.2 := by
    intro p hp
    rw [hops1def] at hp
    obtain ⟨q, hq, rfl⟩ := List.mem_map.mp hp
    obtain ⟨h1, h2, _⟩ := convIdxPairs_mem D q hq
    exact ⟨ha q.1 h1, hb q.2 h2, trivial⟩
  obtain ⟨hext1, htb1, hmap1⟩ := arithmetic_many_spec φ ops1.length ops1 st
    1 1 (Nat.le_refl _) hops1B
  rw [← hr1def] at hext1 htb1 hmap1
  have hops2B : ∀ p ∈ ops2, tB r1.2 p.1 ∧ tB r1.2 p.2.1 ∧ tB r1.2 p.2.2 := by
    intro p hp
    rw [hops2def] at hp
    obtain ⟨q, hq, rfl⟩ := List.mem_map.mp hp
    obtain ⟨h1, h2, _⟩ := convIdxPairsW_mem D q hq
    exact ⟨tB_mono hext1 (ha q.1 h1), tB_mono hext1 (hb q.2 h2), trivial⟩
  obtain ⟨hext2, htb2, hmap2⟩ := arithmetic_many_spec φ ops2.length ops2 r1.2
    W 1 (Nat.le_refl _) hops2B
  rw [← hr2def] at hext2 htb2 hmap2
  have hmn : r1.1.map (evalT r2.2)
      = (convIdxPairs D).map
          (fun p => evalT st (a p.1) * evalT st (b p.2)) := by
    have hstep : r1.1.map (evalT r2.2) = r1.1.map (evalT r1.2) :=
      List.map_congr_left fun r hr => hext2.pres r (htb1 r hr)
    rw [hstep, hmap1, hops1def, List.map_map]
    refine List.map_congr_left fun p hp => ?_
    simp [Function.comp, evalT_zero]
  have hmw : r2.1.map (evalT r2.2)
      = (convIdxPairsW D).map
          (fun p => φ W * (evalT st (a p.1) * evalT st (b p.2))) := by
    rw [hmap2, hops2def, List.map_map]
    refine List.map_congr_left fun p hp => ?_
    obtain ⟨h1, h2, _⟩ := convIdxPairsW_mem D p hp
    have e1 := hext1.pres (a p.1) (ha p.1 h1)
    have e2 := hext1.pres (b p.2) (hb p.2 h2)
    simp [Function.comp, e1, e2, evalT_zero, mul_assoc]
  show evalT (addManyList φ r2.2 ((List.range D).map (fun k2 =>
      ((((convIdxPairs D).zip r1.1).filter
        (fun q => decide ((q.1.1 + q.1.2) % D = k2))).map Prod.snd)
      ++ ((((convIdxPairsW D).zip r2.1).filter
        (fun q => decide ((q.1.1 + q.1.2) % D = k2))).map Prod.snd)))).2
    ((addManyList φ r2.2 ((List.range D).map (fun k2 =>
      ((((convIdxPairs D).zip r1.1).filter
        (fun q => decide ((q.1.1 + q.1.2) % D = k2))).map Prod.snd)
      ++ ((((convIdxPairsW D).zip r2.1).filter
        (fun q => decide ((q.1.1 + q.1.2) % D = k2))).map Prod.snd)))).1.getD
      k (ETarget.konst 0)) = _
  have hbtB : ∀ l ∈ (List.range D).map (fun k2 =>
      ((((convIdxPairs D).zip r1.1).filter
        (fun q => decide ((q.1.1 + q.1.2) % D = k2))).map Prod.snd)
      ++ ((((convIdxPairsW D).zip r2.1).filter
        (fun q => decide ((q.1.1 + q.1.2) % D = k2))).map Prod.snd)),
      ∀ t ∈ l, tB r2.2 t := by
    intro l hl t ht
    obtain ⟨k2, hk2, rfl⟩ := List.mem_map.mp hl
    rcases List.mem_append.mp ht with h | h
    · obtain ⟨⟨qi, qm⟩, hq, rfl⟩ := List.mem_map.mp h
      exact tB_mono hext2
        (htb1 qm (List.of_mem_zip (List.mem_of_mem_filter hq)).2)
    · obtain ⟨⟨qi, qm⟩, hq, rfl⟩ := List.mem_map.mp h
      exact htb2 qm (List.of_mem_zip (List.mem_of_mem_filter hq)).2
  obtain ⟨hext3, hval3⟩ := addManyList_spec φ _ r2.2 hbtB
  rw [hval3 k (by rw [List.length_map, List.length_range]; exact hk)]
  have hklen : k < ((List.range D).map (fun k2 =>
      ((((convIdxPairs D).zip r1.1).filter
        (fun q => decide ((q.1.1 + q.1.2) % D = k2))).map Prod.snd)
      ++ ((((convIdxPairsW D).zip r2.1).filter
        (fun q => decide ((q.1.1 + q.1.2) % D = k2))).map Prod.snd))).length := by
    rw [List.length_map, List.length_range]; exact hk
  rw [List.getD_eq_getElem _ _ hklen, List.getElem_map,
    List.getElem_range]
  rw [List.map_append, List.sum_append]
  have hz1 := zip_filter_vals (evalT r2.2)
    (fun p => evalT st (a p.1) * evalT st (b p.2))
    (fun pr => decide ((pr.1 + pr.2) % D = k))
    (fun q => decide ((q.1.1 + q.1.2) % D = k))
    (fun x => rfl) (convIdxPairs D) r1.1 hmn
  have hz2 := zip_filter_vals (evalT r2.2)
    (fun p => φ W * (evalT st (a p.1) * evalT st (b p.2)))
    (fun pr => decide ((pr.1 + pr.2) % D = k))
    (fun q => decide ((q.1.1 + q.1.2) % D = k))
    (fun x => rfl) (convIdxPairsW D) r2.1 hmw
  rw [hz1, hz2]
  exact conv_list_identity D k (fun i => evalT st (a i))
    (fun j => evalT st (b j)) (φ W)

/-- Concrete degree-2 second-tower operand for the convolution witness. -/
def aW : Nat → ETarget (ZMod 11) := fun i =>
  if i = 0 then ETarget.virt 0 else ETarget.virt 1

/-- Concrete degree-2 second-tower operand for the convolution witness. -/
def bW : Nat → ETarget (ZMod 11) := fun j =>
  if j = 0 then ETarget.virt 2 else ETarget.konst 4

theorem mul_ext_algebra_convolution_witness :
    evalT (mul_ext_algebra qId 2 7 stW aW bW).2
        ((mul_ext_algebra qId 2 7 stW aW bW).1.getD 0 (ETarget.konst 0)) = 5
    ∧ evalT (mul_ext_algebra qId 2 7 stW aW bW).2
        ((mul_ext_algebra qId 2 7 stW aW bW).1.getD 1 (ETarget.konst 0))
        = 0 := by
  have haB : ∀ i, i < 2 → tB stW (aW i) := by
    intro i hi
    interval_cases i
    · exact stW_tB0
    · exact stW_tB1
  have hbB : ∀ j, j < 2 → tB stW (bW j) := by
    intro j hj
    interval_cases j
    · exact stW_tB2
    · exact trivial
  have h0 := mul_ext_algebra_convolution qId 2 7 stW aW bW haB hbB 0
    (by decide)
  have h1 := mul_ext_algebra_convolution qId 2 7 stW aW bW haB hbB 1
    (by decide)
  constructor
  · rw [h0]; decide
  · rw [h1]; decide

/-- Satisfaction of one emitted constraint by a witness assignment `A`. -/
def cSat (A : ETarget E → E) : Constr F E → Prop
  | .gate c0 c1 m0 m1 a outT => A outT = φ c0 * A m0 * A m1 + φ c1 * A a
  | .eqc t1 t2 => A t1 = A t2

/-- The fresh-quotient block shared by `inverse_extension` and
`div_unsafe_extension`: allocate a virtual target, register the quotient
generator for it.  Spec lemmas below describe the allocated target. -/
theorem qgen_block_extends (st : CB F E) (num dem : ETarget E) :
    Extends st (add_quotient_generator (add_virtual_extension_target st).2
      num dem (add_virtual_extension_target st).1) := by
  refine ⟨Nat.le_refl _, Nat.le_succ _, fun t ht => ?_⟩
  exact evalL_cons_ne (Ne.symm (tB_ne_virt ht))

theorem qgen_block_tB (st : CB F E) (num dem : ETarget E) :
    tB (add_quotient_generator (add_virtual_extension_target st).2
      num dem (add_virtual_extension_target st).1)
      (add_virtual_extension_target st).1 :=
  Nat.lt_succ_self _

theorem qgen_block_val (st : CB F E) (num dem : ETarget E) :
    evalT (add_quotient_generator (add_virtual_extension_target st).2
        num dem (add_virtual_extension_target st).1)
      (add_virtual_extension_target st).1
      = evalT st num / evalT st dem :=
  evalL_cons_virt

theorem assert_equal_extends (st : CB F E) (t1 t2 : ETarget E) :
    Extends st (assert_equal_extension st t1 t2) :=
  ⟨Nat.le_refl _, Nat.le_refl _, fun _ _ => rfl⟩

theorem inverse_extension_extends (st : CB F E) (x : ETarget E) :
    Extends st (inverse_extension φ st x).2 := by
  refine Extends.trans (qgen_block_extends st one_extension x) ?_
  refine Extends.trans
    (mul_extension_extends φ _ x (add_virtual_extension_target st).1) ?_
  exact assert_equal_extends _ _ _

theorem inverse_extension_tB (st : CB F E) (x : ETarget E) :
    tB (inverse_extension φ st x).2 (inverse_extension φ st x).1 :=
  tB_mono (mul_extension_extends φ _ x (add_virtual_extension_target st).1)
    (qgen_block_tB st one_extension x)

theorem inverse_extension_val (st : CB F E) (x : ETarget E) :
    evalT (inverse_extension φ st x).2 (inverse_extension φ st x).1
      = 1 / evalT st x := by
  show evalT (assert_equal_extension _ _ _) _ = _
  have hm := mul_extension_extends φ
    (add_quotient_generator (add_virtual_extension_target st).2 one_extension x
      (add_virtual_extension_target st).1) x (add_virtual_extension_target st).1
  have h1 := hm.pres (add_virtual_extension_target st).1
    (qgen_block_tB st one_extension x)
  show evalT (mul_extension φ _ x (add_virtual_extension_target st).1).2
    (add_virtual_extension_target st).1 = _
  rw [h1, qgen_block_val st one_extension x]
  rfl

theorem div_extension_extends (st : CB F E) (x y : ETarget E) :
    Extends st (div_extension φ st x y).2 :=
  Extends.trans (inverse_extension_extends φ st y)
    (mul_extension_extends φ _ x (inverse_extension φ st y).1)

theorem div_extension_val (st : CB F E) {x : ETarget E} (y : ETarget E)
    (hx : tB st x) :
    evalT (div_extension φ st x y).2 (div_extension φ st x y).1
      = evalT st x / evalT st y := by
  show evalT (mul_extension φ (inverse_extension φ st y).2 x
      (inverse_extension φ st y).1).2
    (mul_extension φ (inverse_extension φ st y).2 x
      (inverse_extension φ st y).1).1 = _
  rw [mul_extension_val φ]
  rw [(inverse_extension_extends φ st y).pres x hx]
  rw [inverse_extension_val φ st y]
  rw [mul_one_div]

theorem div_unsafe_extension_val (st : CB F E) (x y : ETarget E) :
    evalT (div_unsafe_extension φ st x y).2 (div_unsafe_extension φ st x y).1
      = evalT st x / evalT st y := by
  show evalT (assert_equal_extension _ _ _) _ = _
  have hm := mul_extension_extends φ
    (add_quotient_generator (add_virtual_extension_target st).2 x y
      (add_virtual_extension_target st).1) (add_virtual_extension_target st).1 y
  have h1 := hm.pres (add_virtual_extension_target st).1 (qgen_block_tB st x y)
  show evalT (mul_extension φ _ (add_virtual_extension_target st).1 y).2
    (add_virtual_extension_target st).1 = _
  rw [h1, qgen_block_val st x y]

/-- C1: for every state, numerator target `x` and denominator target `y`,
any witness assignment that respects constant targets and gives `y` the
extension zero fails to satisfy the constraint set emitted by
`div_extension(x, y)`: the multiplication gate of `inverse_extension`
forces the checked wire to `y * inv = 0`, while the emitted equality
constraint forces it to one, so the instance is unsatisfiable (proving
fails) rather than panicking or silently succeeding. -/
theorem div_by_zero_unsat (st : CB F E) (x y : ETarget E) (A : ETarget E → E)
    (hA : ∀ v, A (ETarget.konst v) = v) (hy : A y = 0) :
    ¬ (∀ c ∈ ((div_extension φ st x y).2).constrs, cSat φ A c) := by
  intro hsat
  have hlist : (div_extension φ st x y).2.constrs
      = Constr.gate 1 0 zero_extension zero_extension zero_extension
          (ETarget.wire (st.numGates + 1) 7)
        :: Constr.gate 1 0 x (ETarget.virt st.virtCount) zero_extension
          (ETarget.wire (st.numGates + 1) 6)
        :: Constr.eqc (ETarget.wire st.numGates 6) one_extension
        :: Constr.gate 1 0 zero_extension zero_extension zero_extension
          (ETarget.wire st.numGates 7)
        :: Constr.gate 1 0 y (ETarget.virt st.virtCount) zero_extension
          (ETarget.wire st.numGates 6)
        :: st.constrs := rfl
  have hg := hsat (Constr.gate 1 0 y (ETarget.virt st.virtCount) zero_extension
    (ETarget.wire st.numGates 6)) (by rw [hlist]; simp)
  have he := hsat (Constr.eqc (ETarget.wire st.numGates 6) one_extension)
    (by rw [hlist]; simp)
  have hg2 : A (ETarget.wire st.numGates 6)
      = φ 1 * A y * A (ETarget.virt st.virtCount)
        + φ 0 * A (zero_extension : ETarget E) := hg
  have he2 : A (ETarget.wire st.numGates 6)
      = A (one_extension : ETarget E) := he
  rw [hy] at hg2
  simp at hg2
  rw [hg2] at he2
  have h1 : A (one_extension : ETarget E) = 1 := hA 1
  rw [h1] at he2
  exact zero_ne_one he2

/-- The all-constants witness assignment used to exhibit C1 concretely. -/
def constAssign : ETarget (ZMod 11) → ZMod 11
  | .konst v => v
  | _ => 0

theorem div_by_zero_unsat_witness :
    ¬ (∀ c ∈ ((div_extension qId stW (ETarget.virt 0)
        (ETarget.konst 0)).2).constrs, cSat qId constAssign c) :=
  div_by_zero_unsat qId stW (ETarget.virt 0) (ETarget.konst 0) constAssign
    (fun v => rfl) rfl

/-- C2: with the denominator carrying a nonzero value `y`, the target
returned by `div_extension` carries exactly the host-algebra quotient
`x / y`, and so does the target returned by `div_unsafe_extension`; the
registered `QuotientGeneratorExtension` is recorded with the numerator,
denominator and quotient targets, and its one-shot run writes
`numerator / denominator` computed by host extension division. -/
theorem division_correctness (st : CB F E) (xt yt : ETarget E) (x y : E)
    (hxt : tB st xt) (hyt : tB st yt) (hx : evalT st xt = x)
    (hy : evalT st yt = y) (hy0 : y ≠ 0) :
    evalT (div_extension φ st xt yt).2 (div_extension φ st xt yt).1 = x / y
    ∧ evalT (div_unsafe_extension φ st xt yt).2
        (div_unsafe_extension φ st xt yt).1 = x / y
    ∧ (div_unsafe_extension φ st xt yt).2.gens
        = (xt, yt, (div_unsafe_extension φ st xt yt).1) :: st.gens
    ∧ quotientRunOnce x y = x / y := by
  refine ⟨?_, ?_, rfl, rfl⟩
  · rw [div_extension_val φ st yt hxt, hx, hy]
  · rw [div_unsafe_extension_val φ st xt yt, hx, hy]

theorem division_correctness_witness :
    evalT (div_extension qId stW (ETarget.virt 0) (ETarget.virt 1)).2
        (div_extension qId stW (ETarget.virt 0) (ETarget.virt 1)).1
      = (3 : ZMod 11) / 2
    ∧ evalT (div_unsafe_extension qId stW (ETarget.virt 0) (ETarget.virt 1)).2
        (div_unsafe_extension qId stW (ETarget.virt 0) (ETarget.virt 1)).1
      = (3 : ZMod 11) / 2 := by
  have h := division_correctness qId stW (ETarget.virt 0) (ETarget.virt 1)
    3 2 stW_tB0 stW_tB1 (by decide) (by decide) (by decide)
  exact ⟨h.1, h.2.1⟩

theorem powersEmit_succ (st : CB F E) (p : PowersTarget E) (n : Nat) :
    powersEmit φ st p (n + 1)
      = (p.current
          :: (powersEmit φ (mul_extension φ st p.base p.current).2
              ⟨p.base, (mul_extension φ st p.base p.current).1⟩ n).1,
         (powersEmit φ (mul_extension φ st p.base p.current).2
            ⟨p.base, (mul_extension φ st p.base p.current).1⟩ n).2.1,
         (powersEmit φ (mul_extension φ st p.base p.current).2
            ⟨p.base, (mul_extension φ st p.base p.current).1⟩ n).2.2) := rfl

/-- Emission lemma for the powers iterator: starting from any iterator
state whose targets are bound, the i-th emitted target of `n` successive
`next` calls carries `base ^ i * current`, read in the final builder
state. -/
theorem powersEmit_spec (n : Nat) :
    ∀ (st : CB F E) (p : PowersTarget E), tB st p.base → tB st p.current →
      Extends st (powersEmit φ st p n).2.2
      ∧ (powersEmit φ st p n).1.length = n
      ∧ ∀ i, i < n →
        evalT (powersEmit φ st p n).2.2
            ((powersEmit φ st p n).1.getD i (ETarget.konst 0))
          = evalT st p.base ^ i * evalT st p.current := by
  induction n with
  | zero =>
    intro st p hb hc
    exact ⟨Extends.refl st, rfl, fun i hi => absurd hi (Nat.not_lt_zero i)⟩
  | succ n ih =>
    intro st p hb hc
    have hmext := mul_extension_extends φ st p.base p.current
    have hb2 : tB (mul_extension φ st p.base p.current).2 p.base :=
      tB_mono hmext hb
    have hc2 : tB (mul_extension φ st p.base p.current).2
        (mul_extension φ st p.base p.current).1 :=
      mul_extension_tB φ st p.base p.current
    obtain ⟨hext, hlen, hval⟩ := ih (mul_extension φ st p.base p.current).2
      ⟨p.base, (mul_extension φ st p.base p.current).1⟩ hb2 hc2
    rw [powersEmit_succ φ st p n]
    refine ⟨Extends.trans hmext hext, ?_, ?_⟩
    · simp only [List.length_cons]
      rw [hlen]
    · intro i hi
      cases i with
      | zero =>
        simp only [List.getD_cons_zero]
        rw [hext.pres p.current (tB_mono hmext hc), hmext.pres p.current hc,
          pow_zero, one_mul]
      | succ i =>
        simp only [List.getD_cons_succ]
        have hval2 : evalT (powersEmit φ (mul_extension φ st p.base p.current).2
              ⟨p.base, (mul_extension φ st p.base p.current).1⟩ n).2.2
            ((powersEmit φ (mul_extension φ st p.base p.current).2
              ⟨p.base, (mul_extension φ st p.base p.current).1⟩ n).1.getD i
              (ETarget.konst 0))
            = evalT (mul_extension φ st p.base p.current).2 p.base ^ i
              * evalT (mul_extension φ st p.base p.current).2
                (mul_extension φ st p.base p.current).1 :=
          hval i (Nat.lt_of_succ_lt_succ hi)
        rw [hval2, hmext.pres p.base hb,
          mul_extension_val φ st p.base p.current]
        ring

/-- C8: `powers(b)` starts with `current` equal to the extension one, each
`next` call returns the stored current target and replaces it by
`base * current` through one multiplication gate, and the k-th successive
`next` call (k = 1, 2, ...) emits a target carrying `b ^ (k - 1)`; in
particular four calls emit `b^0, b^1, b^2, b^3`. -/
theorem powers_iterator_powers (st : CB F E) (b : ETarget E) (hb : tB st b)
    (n : Nat) :
    (powers b).current = (one_extension : ETarget E)
    ∧ (∀ (st1 : CB F E) (p : PowersTarget E),
        powersNext φ st1 p
          = (p.current, ⟨p.base, (mul_extension φ st1 p.base p.current).1⟩,
             (mul_extension φ st1 p.base p.current).2))
    ∧ ∀ i, i < n →
        evalT (powersEmit φ st (powers b) n).2.2
            ((powersEmit φ st (powers b) n).1.getD i (ETarget.konst 0))
          = evalT st b ^ i := by
  refine ⟨rfl, fun st1 p => rfl, fun i hi => ?_⟩
  obtain ⟨hext, hlen, hval⟩ := powersEmit_spec φ n st (powers b) hb
    (tB_konst st 1)
  rw [hval i hi]
  show evalT st b ^ i * evalT st (ETarget.konst 1) = _
  rw [evalT_konst, mul_one]

theorem powers_iterator_powers_witness :
    evalT (powersEmit qId stW (powers (ETarget.virt 0)) 4).2.2
        ((powersEmit qId stW (powers (ETarget.virt 0)) 4).1.getD 0
          (ETarget.konst 0)) = 1
    ∧ evalT (powersEmit qId stW (powers (ETarget.virt 0)) 4).2.2
        ((powersEmit qId stW (powers (ETarget.virt 0)) 4).1.getD 1
          (ETarget.konst 0)) = 3
    ∧ evalT (powersEmit qId stW (powers (ETarget.virt 0)) 4).2.2
        ((powersEmit qId stW (powers (ETarget.virt 0)) 4).1.getD 2
          (ETarget.konst 0)) = 9
    ∧ evalT (powersEmit qId stW (powers (ETarget.virt 0)) 4).2.2
        ((powersEmit qId stW (powers (ETarget.virt 0)) 4).1.getD 3
          (ETarget.konst 0)) = 5 := by
  have h := powers_iterator_powers qId stW (ETarget.virt 0) stW_tB0 4
  refine ⟨?_, ?_, ?_, ?_⟩
  · rw [h.2.2 0 (by decide)]; decide
  · rw [h.2.2 1 (by decide)]; decide
  · rw [h.2.2 2 (by decide)]; decide
  · rw [h.2.2 3 (by decide)]; decide

/-- C5 (amended): `mul_extension(a, b)` and
`arithmetic_extension(1, 0, a, b, zero)` return targets carrying the same
witness value, the product of the operand values; but `mul_extension`
bypasses the special-case elimination and always allocates one gate, so
the two calls need not have the same effect on the builder state. -/
theorem mul_vs_arithmetic_value (st : CB F E) (a b : ETarget E) :
    evalT (mul_extension φ st a b).2 (mul_extension φ st a b).1
        = evalT st a * evalT st b
    ∧ evalT (arithmetic_extension φ st 1 0 a b zero_extension).2
        (arithmetic_extension φ st 1 0 a b zero_extension).1
        = evalT st a * evalT st b
    ∧ (mul_extension φ st a b).2.numGates = st.numGates + 1 := by
  refine ⟨mul_extension_val φ st a b, ?_, rfl⟩
  have := @arithmetic_extension_val _ _ _ _ _ _ φ st 1 0 a b zero_extension
  simpa using this

end Plonky2
